import Mathlib

/-!
Verification of the candidate-sequence generator and triage/emission logic of
`mapping/find_intersecting_snps_2.py` (WASP).  The Python functions are shallowly
embedded as executable Lean definitions: sequences are `List Char`, the per-chromosome
SNP table is a function `Nat → Option (List Char)` (position to allele string), the
indel table is `Nat → Bool`, and the mutable `Counter` of read dispositions is an
explicit record threaded through each call.
-/

namespace Wasp

/-- Embeds `product(iterable)` = `reduce(mul, iterable, 1)`. -/
def product (l : List Nat) : Nat :=
  l.foldl (fun a b => a * b) 1

/-- Embeds `MAX_SEQS_PER_READ = 1024`. -/
def MAX_SEQS_PER_READ : Nat := 1024

/-- Embeds the byte-translation table `RC_TABLE`: only A/T/C/G are mapped, every
other symbol is left unchanged by `str.translate`. -/
def complement (c : Char) : Char :=
  if c = 'A' then 'T'
  else if c = 'T' then 'A'
  else if c = 'C' then 'G'
  else if c = 'G' then 'C'
  else c

/-- Embeds `reverse_complement(seq) = seq.translate(RC_TABLE)[::-1]`: pointwise
translation followed by reversal. -/
def reverse_complement (s : List Char) : List Char :=
  (s.map complement).reverse

/-- Embeds `get_indels(snp_dict)` for one chromosome.  In the source, a position is
flagged when `('-' in alleles) or (max(len(i) for i in alleles) > 1)`; since `i`
ranges over the characters of the allele string, `len(i)` is always 1, so only the
`'-'` test can fire. -/
def get_indels (snp : Nat → Option (List Char)) : Nat → Bool :=
  fun pos =>
    match snp pos with
    | some alleles => alleles.contains '-'
    | none => false

/-- Embeds the Python string substitution `seq[:p] + allele + seq[p+1:]`. -/
def substitute (s : List Char) (p : Nat) (c : Char) : List Char :=
  s.take p ++ c :: s.drop (p + 1)

/-- The disposition counters accumulated in the `Counter` passed around as
`dispositions` / `read_results`. -/
structure Dispositions where
  toss_indel : Nat
  toss_manysnps : Nat
  toss_anomalous_phase : Nat
  no_snps : Nat
  has_snps : Nat
  ref_match : Nat
  no_match : Nat
deriving DecidableEq

/-- All counters zero: a fresh `Counter()`. -/
def d0 : Dispositions := ⟨0, 0, 0, 0, 0, 0, 0⟩

/-- One aligned read, restricted to the fields the embedded functions read:
`seq`, `qual`, `pos`, `is_reverse`, `reference_name`, and
`get_aligned_pairs(matches_only=True)` as a list of (query-offset, reference-offset)
pairs (with `matches_only` both components are always present). -/
structure AlignedRead where
  seq : List Char
  qual : List Char
  pos : Nat
  is_reverse : Bool
  reference_name : String
  aligned_pairs : List (Nat × Nat)
deriving DecidableEq

/-- Placeholder read used as the default of list lookups that the source guards by
construction (`assert len(reads) == len(fastqs)` etc.). -/
def dfltRead : AlignedRead := ⟨[], [], 0, false, "", []⟩

/-- The per-position expansion loop of `get_read_seqs`: for each allele differing
from the observed read base, a snapshot `list(seqs)` of the current candidate list
is taken and one substituted copy of every snapshot entry is appended. -/
def expandPos (rp : Nat) (base : Char) (seqs : List (List Char)) (alleles : List Char) :
    List (List Char) :=
  alleles.foldl
    (fun acc a =>
      if a = base then acc
      else acc ++ acc.map (fun s => substitute s rp a))
    seqs

/-- The main loop of `get_read_seqs` over the aligned pairs, threading the growing
candidate list and the disposition counters.  Per pair, in source order: the indel
check, the running-length cap check, then the SNP lookup and expansion.  The
(dead) `if ref_pos is None: continue` guard is omitted: with `matches_only=True`
both components are always present. -/
def get_read_seqs_go (snp : Nat → Option (List Char)) (indel : Nat → Bool)
    (origSeq : List Char) :
    List (Nat × Nat) → List (List Char) → Dispositions →
    List (List Char) × Dispositions
  | [], seqs, res =>
    if seqs.length = 1 then (seqs, { res with no_snps := res.no_snps + 1 })
    else (seqs, { res with has_snps := res.has_snps + 1 })
  | (rp, refp) :: rest, seqs, res =>
    if indel refp then ([], { res with toss_indel := res.toss_indel + 1 })
    else if seqs.length > MAX_SEQS_PER_READ then
      ([], { res with toss_manysnps := res.toss_manysnps + 1 })
    else
      match snp refp with
      | some alleles =>
        let base := origSeq.getD rp ' '
        if base ∈ alleles then
          get_read_seqs_go snp indel origSeq rest (expandPos rp base seqs alleles)
            { res with ref_match := res.ref_match + 1 }
        else
          get_read_seqs_go snp indel origSeq rest seqs
            { res with no_match := res.no_match + 1 }
      | none => get_read_seqs_go snp indel origSeq rest seqs res

/-- Embeds `get_read_seqs(read, snp_dict, indel_dict, dispositions)` (single-end
candidate generator), specialised to the read's chromosome. -/
def get_read_seqs (snp : Nat → Option (List Char)) (indel : Nat → Bool)
    (read : AlignedRead) (res : Dispositions) :
    List (List Char) × Dispositions :=
  get_read_seqs_go snp indel read.seq read.aligned_pairs [read.seq] res

/-- The `read_posns` defaultdict of `get_dual_read_seqs`: reference position to the
pair of optional query-offsets `[None, None]` in mate 1 / mate 2.  Modelled as an
association list consulted only through `posnsGet`. -/
abbrev Posns := List (Nat × (Option Nat × Option Nat))

/-- Dictionary lookup with the defaultdict default `[None, None]`. -/
def posnsGet (l : Posns) (p : Nat) : Option Nat × Option Nat :=
  match l.find? (fun e => e.1 == p) with
  | some e => e.2
  | none => (none, none)

/-- Dictionary update: the new binding shadows any previous one under `posnsGet`. -/
def posnsSet (l : Posns) (p : Nat) (v : Option Nat × Option Nat) : Posns :=
  (p, v) :: l

/-- Update of the ordered `snps` dict: a Python dict keeps the insertion position of
an existing key and appends fresh keys, and iteration follows that order. -/
def upsertSnps (snps : List (Nat × List Char)) (p : Nat) (v : List Char) :
    List (Nat × List Char) :=
  if snps.any (fun e => e.1 == p) then
    snps.map (fun e => if e.1 = p then (p, v) else e)
  else snps ++ [(p, v)]

/-- One of the two scanning loops of `get_dual_read_seqs` over a mate's aligned
pairs: aborts (`none`) on an indel-flagged position, otherwise records overlapped
SNP positions into `snps` and the mate's query-offset into `read_posns`
(component 0 for mate 1, component 1 for mate 2). -/
def scanPairs (snp : Nat → Option (List Char)) (indel : Nat → Bool) (isMate2 : Bool) :
    List (Nat × Nat) → List (Nat × List Char) → Posns →
    Option (List (Nat × List Char) × Posns)
  | [], snps, posns => some (snps, posns)
  | (rp, refp) :: rest, snps, posns =>
    if indel refp then none
    else
      match snp refp with
      | some alleles =>
        let old := posnsGet posns refp
        let v := if isMate2 then (old.1, some rp) else (some rp, old.2)
        scanPairs snp indel isMate2 rest (upsertSnps snps refp alleles) (posnsSet posns refp v)
      | none => scanPairs snp indel isMate2 rest snps posns

/-- The two scanning loops of `get_dual_read_seqs` in sequence; `none` when either
mate covers an indel-flagged position (both chromosome lookups use mate 1's
chromosome in the source, as do we by fixing one per-chromosome table). -/
def dualOverlap (snp : Nat → Option (List Char)) (indel : Nat → Bool)
    (r1 r2 : AlignedRead) : Option (List (Nat × List Char) × Posns) :=
  match scanPairs snp indel false r1.aligned_pairs [] [] with
  | none => none
  | some (snps, posns) => scanPairs snp indel true r2.aligned_pairs snps posns

/-- Product of the allele-string lengths over the collected overlap positions:
`product(len(i) for i in snps.values())`. -/
def snpsProduct (snps : List (Nat × List Char)) : Nat :=
  product (snps.map (fun e => e.2.length))

/-- State of the substitution loop of `get_dual_read_seqs`.  `cs1`/`cs2` model the
Python variables `seq1`/`seq2`: they start as the original sequences but are
rebound by each executed `for seq1, seq2 in zip(seqs1, seqs2)` loop to the last
zipped pair; `ls1`/`ls2` are the growing lists `seqs1`/`seqs2`. -/
structure DualState where
  cs1 : List Char
  cs2 : List Char
  ls1 : List (List Char)
  ls2 : List (List Char)
deriving DecidableEq

/-- Accumulator of one position's allele loop: the (rebindable) `seq1`/`seq2`
variables plus `new_seqs1`/`new_seqs2`. -/
structure AlleleAcc where
  c1 : List Char
  c2 : List Char
  n1 : List (List Char)
  n2 : List (List Char)
deriving DecidableEq

/-- After `for seq1, seq2 in zip(seqs1, seqs2)` runs, the loop variables hold the
last zipped pair; if the zip is empty the loop body never runs and they keep their
previous values. -/
def rebind (ls1 ls2 : List (List Char)) (c1 c2 : List Char) : List Char × List Char :=
  match (ls1.zip ls2).getLast? with
  | some q => (q.1, q.2)
  | none => (c1, c2)

/-- Allele step for a position seen only in mate 2 (`pos1 is None`): skip alleles
equal to the observed base `seq2[pos2]` (of the current, possibly rebound, `seq2`),
otherwise copy every mate-1 sequence and append the substituted mate-2 sequence. -/
def stepOnly2 (o2 : Nat) (ls1 ls2 : List (List Char)) (acc : AlleleAcc) (a : Char) :
    AlleleAcc :=
  if a = acc.c2.getD o2 ' ' then acc
  else
    let zs := ls1.zip ls2
    let r := rebind ls1 ls2 acc.c1 acc.c2
    { c1 := r.1
      c2 := r.2
      n1 := acc.n1 ++ zs.map (fun q => q.1)
      n2 := acc.n2 ++ zs.map (fun q => substitute q.2 o2 a) }

/-- Allele step for a position seen only in mate 1 (`pos2 is None`). -/
def stepOnly1 (o1 : Nat) (ls1 ls2 : List (List Char)) (acc : AlleleAcc) (a : Char) :
    AlleleAcc :=
  if a = acc.c1.getD o1 ' ' then acc
  else
    let zs := ls1.zip ls2
    let r := rebind ls1 ls2 acc.c1 acc.c2
    { c1 := r.1
      c2 := r.2
      n1 := acc.n1 ++ zs.map (fun q => substitute q.1 o1 a)
      n2 := acc.n2 ++ zs.map (fun q => q.2) }

/-- Allele step for a position seen in both mates: both sequences get the same
substitution, keeping the two lists in lockstep. -/
def stepBoth (o1 o2 : Nat) (ls1 ls2 : List (List Char)) (acc : AlleleAcc) (a : Char) :
    AlleleAcc :=
  if a = acc.c2.getD o2 ' ' then acc
  else
    let zs := ls1.zip ls2
    let r := rebind ls1 ls2 acc.c1 acc.c2
    { c1 := r.1
      c2 := r.2
      n1 := acc.n1 ++ zs.map (fun q => substitute q.1 o1 a)
      n2 := acc.n2 ++ zs.map (fun q => substitute q.2 o2 a) }

/-- Result of the substitution loop: `abort` models the
`toss_anomalous_phase` early return. -/
inductive DualRes where
  | abort : DualRes
  | ok : DualState → DualRes

/-- Processing of one overlap position of `get_dual_read_seqs`: dispatch on which
mates cover it; for a doubly-covered position first the phase-consistency check on
the current `seq1[pos1]` / `seq2[pos2]`, then the allele loop.  A `(None, None)`
entry cannot be produced by the scans (each recorded position stores at least one
offset); the source would raise there, we return the state unchanged. -/
def stepPos (st : DualState) (alleles : List Char) (po : Option Nat × Option Nat) :
    DualRes :=
  match po with
  | (none, some o2) =>
    let acc := alleles.foldl (stepOnly2 o2 st.ls1 st.ls2) ⟨st.cs1, st.cs2, [], []⟩
    .ok ⟨acc.c1, acc.c2, st.ls1 ++ acc.n1, st.ls2 ++ acc.n2⟩
  | (some o1, none) =>
    let acc := alleles.foldl (stepOnly1 o1 st.ls1 st.ls2) ⟨st.cs1, st.cs2, [], []⟩
    .ok ⟨acc.c1, acc.c2, st.ls1 ++ acc.n1, st.ls2 ++ acc.n2⟩
  | (some o1, some o2) =>
    if st.cs1.getD o1 ' ' ≠ st.cs2.getD o2 ' ' then .abort
    else
      let acc := alleles.foldl (stepBoth o1 o2 st.ls1 st.ls2) ⟨st.cs1, st.cs2, [], []⟩
      .ok ⟨acc.c1, acc.c2, st.ls1 ++ acc.n1, st.ls2 ++ acc.n2⟩
  | (none, none) => .ok st

/-- The `for ref_pos in snps` loop of `get_dual_read_seqs`. -/
def dualFold (posns : Posns) : List (Nat × List Char) → DualState → DualRes
  | [], st => .ok st
  | (p, alleles) :: rest, st =>
    match stepPos st alleles (posnsGet posns p) with
    | .abort => .abort
    | .ok st2 => dualFold posns rest st2

/-- Embeds `get_dual_read_seqs(read1, read2, snp_dict, indel_dict, dispositions)`:
scan both mates (indel abort), apply the combinatorial cap to the product of
allele-string lengths, run the lockstep substitution loop (anomalous-phase abort),
and classify by the final list length. -/
def get_dual_read_seqs (snp : Nat → Option (List Char)) (indel : Nat → Bool)
    (r1 r2 : AlignedRead) (res : Dispositions) :
    (List (List Char) × List (List Char)) × Dispositions :=
  match dualOverlap snp indel r1 r2 with
  | none => (([], []), { res with toss_indel := res.toss_indel + 1 })
  | some (snps, posns) =>
    if snpsProduct snps > MAX_SEQS_PER_READ then
      (([], []), { res with toss_manysnps := res.toss_manysnps + 1 })
    else
      match dualFold posns snps ⟨r1.seq, r2.seq, [r1.seq], [r2.seq]⟩ with
      | .abort => (([], []), { res with toss_anomalous_phase := res.toss_anomalous_phase + 1 })
      | .ok st =>
        if st.ls1.length = 1 then
          ((st.ls1, st.ls2), { res with no_snps := res.no_snps + 1 })
        else
          ((st.ls1, st.ls2), { res with has_snps := res.has_snps + 1 })

/-- One 4-line record appended to a synthetic-read (FASTQ) sink: the identifier
line (shared between the `@` and `+` lines), the sequence and the quality. -/
structure FastqRec where
  loc_line : String
  seq : List Char
  qual : List Char
deriving DecidableEq

/-- Everything `write_read_seqs` writes: the records sent to the keep, to-remap and
dropped alignment sinks, the per-mate synthetic-read sinks, and the return value
added to `remap_num` by the caller. -/
structure WriteOut where
  keep : List AlignedRead
  remap : List AlignedRead
  dropped : List AlignedRead
  fastqOut : List (List FastqRec)
  ret : Nat
deriving DecidableEq

/-- Embeds `itertools.product(*seqs)`: all combinations picking one entry per list,
first list varying slowest, in order. -/
def listProd {α : Type} : List (List α) → List (List α)
  | [] => [[]]
  | l :: ls => (l.map (fun x => (listProd ls).map (fun c => x :: c))).flatten

/-- `num_seqs = product(len(r[1]) for r in both_read_seqs)`. -/
def numSeqsOf (both : List (AlignedRead × List (List Char))) : Nat :=
  product (both.map (fun b => b.2.length))

/-- `min(r.pos for r in reads)` (the source never takes it on an empty list). -/
def listMin : List Nat → Nat
  | [] => 0
  | x :: xs => xs.foldl min x

/-- `max(r.pos for r in reads)`. -/
def listMax : List Nat → Nat
  | [] => 0
  | x :: xs => xs.foldl max x

/-- The synthetic identifier
`'{}:{}:{}:{}:{}'.format(remap_num, read.reference_name, left_pos, right_pos, num_seqs-1)`. -/
def mkLocLine (remap_num : Nat) (chrom : String) (left right alts : Nat) : String :=
  toString remap_num ++ ":" ++ chrom ++ ":" ++ toString left ++ ":" ++
    toString right ++ ":" ++ toString alts

/-- Embeds `write_read_seqs(both_read_seqs, keep, remap_bam, fastqs, dropped,
remap_num)`.  `hasDropped` models `dropped is not None` (the single-end caller
passes no dropped sink).  In the remap branch the identifier's chromosome comes
from the loop variable `read`, i.e. the last read; the first tuple yielded by
`itertools.product` (the all-original combination) is skipped, and every later
combination appends one record per mate to that mate's sink, reverse-complemented
when that mate is reverse-strand, with that mate's quality string. -/
def write_read_seqs (both : List (AlignedRead × List (List Char)))
    (hasDropped : Bool) (remap_num : Nat) : WriteOut :=
  let reads := both.map (fun b => b.1)
  let seqLists := both.map (fun b => b.2)
  let num_seqs := numSeqsOf both
  if num_seqs = 0 ∨ num_seqs > MAX_SEQS_PER_READ then
    if hasDropped then ⟨[], [], reads, [], 0⟩ else ⟨[], [], [], [], 0⟩
  else if num_seqs = 1 then ⟨reads, [], [], [], 0⟩
  else
    let loc_line := mkLocLine remap_num (reads.getLastD dfltRead).reference_name
      (listMin (reads.map (fun r => r.pos))) (listMax (reads.map (fun r => r.pos)))
      (num_seqs - 1)
    let combos := (listProd seqLists).tail
    let files := (List.range reads.length).map (fun i =>
      let read := reads.getD i dfltRead
      combos.map (fun combo =>
        let sq := combo.getD i []
        ({ loc_line := loc_line
           seq := if read.is_reverse then reverse_complement sq else sq
           qual := read.qual } : FastqRec)))
    ⟨[], reads, [], files, 1⟩

/-- The accumulated outputs of a run of `assign_reads`. -/
structure RunOut where
  keep : List AlignedRead
  remap : List AlignedRead
  dropped : List AlignedRead
  fastq : List FastqRec
  results : Dispositions
deriving DecidableEq

/-- Embeds the single-end path of `assign_reads` (`is_paired=False`): for each read
in stream order, generate candidates and call
`write_read_seqs([(read, read_seqs)], keep, remap_bam, fastqs)` — with no dropped
sink and the default `remap_num=0`; the returned increment is discarded and the
`remap_num` variable is never threaded through this path. -/
def assign_reads_single (snp : Nat → Option (List Char)) (indel : Nat → Bool)
    (reads : List AlignedRead) : RunOut :=
  reads.foldl
    (fun acc r =>
      let rs := get_read_seqs snp indel r acc.results
      let w := write_read_seqs [(r, rs.1)] false 0
      { keep := acc.keep ++ w.keep
        remap := acc.remap ++ w.remap
        dropped := acc.dropped ++ w.dropped
        fastq := acc.fastq ++ w.fastqOut.getD 0 []
        results := rs.2 })
    ⟨[], [], [], [], d0⟩

/-- Modelled from the spec: the combinatorial size of a single read per the claim,
"the product over all overlapping variant positions of the full allele-string
length at that position" — the single-end source computes no such product, so this
definition follows the spec's words for comparison with `get_read_seqs`. -/
def spec_combinatorial_size (snp : Nat → Option (List Char))
    (pairs : List (Nat × Nat)) : Nat :=
  product (pairs.map (fun pr =>
    match snp pr.2 with
    | some alleles => alleles.length
    | none => 1))

/-- Exact growth factor of the single-end candidate list at one aligned pair: each
allele differing from the observed base doubles the list (the per-allele snapshot
`list(seqs)` includes the sequences appended for earlier alleles of the same
position), and a position whose observed base matches no allele contributes no
growth. -/
def posFactor (snp : Nat → Option (List Char)) (orig : List Char) :
    Nat × Nat → Nat
  | (rp, refp) =>
    match snp refp with
    | some alleles =>
      if orig.getD rp ' ' ∈ alleles then
        2 ^ (alleles.countP (fun a => !(a == orig.getD rp ' ')))
      else 1
    | none => 1

/-- Total growth factor of the single-end candidate list over a list of aligned
pairs; the list length after processing a prefix never exceeds this. -/
def expAll (snp : Nat → Option (List Char)) (orig : List Char)
    (pairs : List (Nat × Nat)) : Nat :=
  product (pairs.map (posFactor snp orig))

/-! Concrete instances used by witnesses and counterexamples. -/

/-- A SNP table with a single biallelic SNP `AG` at position 100. -/
def snpAG : Nat → Option (List Char) := fun p => if p = 100 then some ['A', 'G'] else none

/-- The everywhere-false indel table. -/
def ind0 : Nat → Bool := fun _ => false

/-- An empty SNP table. -/
def snpNone : Nat → Option (List Char) := fun _ => none

/-- A SNP table with a deletion (`-` allele) at position 100. -/
def snpDel : Nat → Option (List Char) := fun p => if p = 100 then some ['A', '-'] else none

/-- A SNP table with eleven biallelic SNPs `AG` at positions 100..110. -/
def snpMany : Nat → Option (List Char) :=
  fun p => if 100 ≤ p ∧ p ≤ 110 then some ['A', 'G'] else none

/-- Mate 1 of a proper pair, covering the SNP at 100 with observed base `A`. -/
def rPair1 : AlignedRead := ⟨['A', 'C'], ['I', 'I'], 10, false, "chr1", [(0, 100), (1, 101)]⟩

/-- Mate 2 of the pair, also covering position 100 with (agreeing) observed base `A`. -/
def rPair2 : AlignedRead := ⟨['A', 'T'], ['J', 'J'], 12, false, "chr1", [(0, 100), (1, 101)]⟩

/-- A single-end read covering the eleven SNPs of `snpMany` with observed base `C`
everywhere — matching no allele at any of them. -/
def rManyC : AlignedRead :=
  ⟨List.replicate 11 'C', List.replicate 11 'I', 50, false, "chr1",
    [(0, 100), (1, 101), (2, 102), (3, 103), (4, 104), (5, 105), (6, 106), (7, 107),
      (8, 108), (9, 109), (10, 110)]⟩

/-- Mate 1 covering the eleven SNPs of `snpMany`. -/
def rMany1 : AlignedRead :=
  ⟨List.replicate 11 'A', List.replicate 11 'I', 50, false, "chr1",
    [(0, 100), (1, 101), (2, 102), (3, 103), (4, 104), (5, 105), (6, 106), (7, 107),
      (8, 108), (9, 109), (10, 110)]⟩

/-- A mate aligned away from every SNP (no aligned pairs over variants). -/
def rEmpty2 : AlignedRead := ⟨['T'], ['I'], 60, false, "chr1", []⟩

/-- A single-end read covering the deletion-flagged position 100 of `snpDel`. -/
def rDel : AlignedRead := ⟨['A'], ['I'], 5, false, "chr1", [(0, 100)]⟩

/-- A SNP table with a 12-symbol allele string at position 100 (eleven alleles
differing from `A`, so a covering read's candidate list grows by 2^11 = 2048) and
a deletion-flagged entry at position 102. -/
def snpBig : Nat → Option (List Char) := fun p =>
  if p = 100 then some ['A', 'B', 'C', 'D', 'E', 'F', 'G', 'H', 'I', 'J', 'K', 'L']
  else if p = 102 then some ['T', '-'] else none

/-- A read covering the huge SNP at 100 first, then a plain position, then the
deletion-flagged position 102: the running candidate list exceeds the cap at the
second pair, before the indel pair is reached. -/
def rBig : AlignedRead :=
  ⟨['A', 'A', 'A'], ['I', 'I', 'I'], 20, false, "chr1", [(0, 100), (1, 101), (2, 102)]⟩

/-- A read covering the deletion-flagged position 102 at its first aligned pair
and the huge SNP at 100 after it: the indel return fires before any expansion. -/
def rIndelFirst : AlignedRead :=
  ⟨['A', 'A'], ['I', 'I'], 22, false, "chr1", [(0, 102), (1, 100)]⟩

/-- First single-end read over the SNP at 100 (observed `A`). -/
def rS1 : AlignedRead := ⟨['A'], ['I'], 5, false, "chr1", [(0, 100)]⟩

/-- Second single-end read over the same SNP, further right. -/
def rS2 : AlignedRead := ⟨['A'], ['J'], 9, false, "chr1", [(0, 100)]⟩

/-- Mate 1 observing `A` at the shared SNP position 100. -/
def rW1 : AlignedRead := ⟨['A'], ['I'], 15, false, "chr1", [(0, 100)]⟩

/-- Mate 2 observing `G` at the shared SNP position 100 — disagreeing with mate 1. -/
def rW2 : AlignedRead := ⟨['G'], ['J'], 17, false, "chr1", [(0, 100)]⟩

/-- A reverse-strand single-end read over the SNP at 100. -/
def rRev : AlignedRead := ⟨['A'], ['I'], 8, true, "chr1", [(0, 100)]⟩

/-- A read overlapping no variant at all. -/
def rN1 : AlignedRead := ⟨['A', 'C'], ['I', 'I'], 3, false, "chr1", [(0, 200), (1, 201)]⟩

/-- A second variant-free read (used as mate 2). -/
def rN2 : AlignedRead := ⟨['G', 'T'], ['J', 'J'], 6, false, "chr1", [(0, 205), (1, 206)]⟩

/-! Helper lemmas. -/

theorem complement_complement (c : Char) : complement (complement c) = c := by
  by_cases h1 : c = 'A'
  · simp [complement, h1]
  · by_cases h2 : c = 'T'
    · simp [complement, h2]
    · by_cases h3 : c = 'C'
      · simp [complement, h3]
      · by_cases h4 : c = 'G'
        · simp [complement, h4]
        · simp [complement, h1, h2, h3, h4]

theorem map_complement_complement (s : List Char) :
    s.map (fun c => complement (complement c)) = s := by
  induction s with
  | nil => rfl
  | cons x xs ih => simp [complement_complement, ih]

theorem product_foldl (l : List Nat) :
    ∀ a : Nat, l.foldl (fun x y => x * y) a = a * product l := by
  induction l with
  | nil => intro a; simp [product]
  | cons b l ih =>
    intro a
    have hb : product (b :: l) = b * product l := by
      show l.foldl (fun x y => x * y) (1 * b) = b * product l
      rw [ih (1 * b)]; ring
    show l.foldl (fun x y => x * y) (a * b) = a * product (b :: l)
    rw [ih (a * b), hb]; ring

theorem product_cons (x : Nat) (l : List Nat) : product (x :: l) = x * product l := by
  show l.foldl (fun a b => a * b) (1 * x) = x * product l
  rw [product_foldl l (1 * x)]; ring

theorem len_one_le_cap (s : List Char) :
    ([s] : List (List Char)).length ≤ MAX_SEQS_PER_READ := by
  rw [List.length_singleton]; decide

theorem len_two_le_cap (s t : List Char) :
    ([s, t] : List (List Char)).length ≤ MAX_SEQS_PER_READ := by
  show 2 ≤ MAX_SEQS_PER_READ
  decide

/-! Claim C10. -/

/-- Claim C10: `reverse_complement` is an involution on arbitrary symbol strings;
symbols outside the translation table (such as `N`) survive the round trip
unchanged because `complement` fixes them. -/
theorem reverse_complement_involution (s : List Char) :
    reverse_complement (reverse_complement s) = s := by
  unfold reverse_complement
  rw [List.map_reverse, List.reverse_reverse, List.map_map]
  exact map_complement_complement s

/-! Claim C1. -/

/-- Claim C1 (refuted; the code is the slip): the paired generator builds the two
candidate lists in lockstep — here `[AC, GC]` and `[AT, GT]`, whose only
non-identity index-aligned combination is `(GC, GT)` — but `write_read_seqs`
emits `itertools.product` of the two lists: its mate-1 sink receives
`[AC, GC, GC]` while the mate-2 sink receives `[GT, AT, GT]`, so the first
emitted combination pairs mate-1 entry 0 with mate-2 entry 1 and the second
pairs mate-1 entry 1 with mate-2 entry 0, both cross-index combinations that
reintroduce the anomalous phase the generator rejects. -/
theorem write_emits_cross_pairings :
    (get_dual_read_seqs snpAG ind0 rPair1 rPair2 d0).1 =
      ([[ 'A', 'C'], ['G', 'C']], [['A', 'T'], ['G', 'T']]) ∧
    (write_read_seqs
        [(rPair1, (get_dual_read_seqs snpAG ind0 rPair1 rPair2 d0).1.1),
         (rPair2, (get_dual_read_seqs snpAG ind0 rPair1 rPair2 d0).1.2)] true 1).fastqOut.map
        (fun f => f.map (fun rec => rec.seq)) =
      [[['A', 'C'], ['G', 'C'], ['G', 'C']], [['G', 'T'], ['A', 'T'], ['G', 'T']]] := by
  decide

/-! Claim C2. -/

/-- Claim C2, counterexample for the single-end half: `rManyC` overlaps eleven
biallelic SNPs, so the product of the full allele-string lengths is 2^11 = 2048,
above the cap — yet `get_read_seqs` returns the one-entry candidate list (its
observed bases match no allele, so the running list never grows) and does not
touch `toss_manysnps`. -/
theorem single_end_cap_product_counterexample :
    spec_combinatorial_size snpMany rManyC.aligned_pairs > MAX_SEQS_PER_READ ∧
    (get_read_seqs snpMany ind0 rManyC d0).1 = [rManyC.seq] ∧
    (get_read_seqs snpMany ind0 rManyC d0).2.toss_manysnps = 0 := by
  decide

/-- Claim C2 as amended: for a mate pair whose scans succeed (no indel abort), if
the product over the collected overlap positions of the full allele-string length
exceeds the cap, `get_dual_read_seqs` returns a pair of empty candidate lists and
increments `toss_manysnps`.  (The single-end path checks the running list length
instead; see the counterexample.) -/
theorem dual_cap_product_tossed (snp : Nat → Option (List Char)) (indel : Nat → Bool)
    (r1 r2 : AlignedRead) (res : Dispositions) (S : List (Nat × List Char)) (P : Posns)
    (hscan : dualOverlap snp indel r1 r2 = some (S, P))
    (hcap : snpsProduct S > MAX_SEQS_PER_READ) :
    get_dual_read_seqs snp indel r1 r2 res =
      (([], []), { res with toss_manysnps := res.toss_manysnps + 1 }) := by
  unfold get_dual_read_seqs
  rw [hscan]
  simp only [if_pos hcap]

/-- Witness for `dual_cap_product_tossed` at a concrete pair covering eleven
biallelic SNPs (product 2048 > 1024). -/
theorem dual_cap_product_tossed_witness :
    get_dual_read_seqs snpMany ind0 rMany1 rEmpty2 d0 =
      (([], []), ⟨0, 1, 0, 0, 0, 0, 0⟩) :=
  dual_cap_product_tossed snpMany ind0 rMany1 rEmpty2 d0 _ _ rfl (by decide)

/-! Claim C9. -/

/-- Claim C9 (refuted; the code is the slip): in the single-end path of
`assign_reads`, `write_read_seqs` is called without the `remap_num` argument, so
every synthetic identifier carries the default counter 0: two reads that both
produce remap batches get the identifiers `0:chr1:5:5:1` and `0:chr1:9:9:1` —
the counter field of the second batch is not strictly greater than the first.
(The paired path does pass and increment `remap_num`.) -/
theorem single_end_remap_counter_constant :
    (assign_reads_single snpAG ind0 [rS1, rS2]).remap = [rS1, rS2] ∧
    (assign_reads_single snpAG ind0 [rS1, rS2]).fastq.map (fun rec => rec.loc_line) =
      ["0:chr1:5:5:1", "0:chr1:9:9:1"] := by
  decide

/-! Claim C3, counterexample. -/

/-! Supporting lemmas for the indel and cap paths. -/

theorem scanPairs_none_of_indel (snp : Nat → Option (List Char)) (indel : Nat → Bool)
    (m : Bool) :
    ∀ (pairs : List (Nat × Nat)) (snps : List (Nat × List Char)) (posns : Posns),
      (∃ pr ∈ pairs, indel pr.2 = true) →
      scanPairs snp indel m pairs snps posns = none := by
  intro pairs
  induction pairs with
  | nil => intro snps posns h; obtain ⟨pr, hmem, _⟩ := h; exact absurd hmem (List.not_mem_nil pr)
  | cons hd tl ih =>
    intro snps posns h
    obtain ⟨rp, refp⟩ := hd
    by_cases hi : indel refp = true
    · simp [scanPairs, hi]
    · have htl : ∃ pr ∈ tl, indel pr.2 = true := by
        obtain ⟨pr, hmem, hind⟩ := h
        rcases List.mem_cons.mp hmem with heq | hmem2
        · rw [heq] at hind; exact absurd hind hi
        · exact ⟨pr, hmem2, hind⟩
      cases hs : snp refp with
      | some alleles => simp [scanPairs, hi, hs, ih _ _ htl]
      | none => simp [scanPairs, hi, hs, ih _ _ htl]

theorem posFactor_pos (snp : Nat → Option (List Char)) (orig : List Char)
    (pr : Nat × Nat) : 1 ≤ posFactor snp orig pr := by
  obtain ⟨rp, refp⟩ := pr
  cases hs : snp refp with
  | none =>
    simp only [posFactor, hs]
    exact le_refl 1
  | some alleles =>
    by_cases h : orig.getD rp ' ' ∈ alleles
    · simp only [posFactor, hs]
      rw [if_pos h]
      exact Nat.one_le_two_pow
    · simp only [posFactor, hs]
      rw [if_neg h]

theorem expAll_cons (snp : Nat → Option (List Char)) (orig : List Char)
    (pr : Nat × Nat) (rest : List (Nat × Nat)) :
    expAll snp orig (pr :: rest) = posFactor snp orig pr * expAll snp orig rest := by
  unfold expAll
  rw [List.map_cons, product_cons]

theorem expAll_pos (snp : Nat → Option (List Char)) (orig : List Char) :
    ∀ pairs : List (Nat × Nat), 1 ≤ expAll snp orig pairs := by
  intro pairs
  induction pairs with
  | nil => exact le_refl 1
  | cons pr rest ih =>
    rw [expAll_cons]
    calc 1 = 1 * 1 := (one_mul 1).symm
    _ ≤ posFactor snp orig pr * expAll snp orig rest :=
      Nat.mul_le_mul (posFactor_pos snp orig pr) ih

theorem expandPos_length (rp : Nat) (base : Char) :
    ∀ (alleles : List Char) (seqs : List (List Char)),
      (expandPos rp base seqs alleles).length =
        seqs.length * 2 ^ (alleles.countP (fun a => !(a == base))) := by
  intro alleles
  induction alleles with
  | nil => intro seqs; simp [expandPos]
  | cons a as ih =>
    intro seqs
    by_cases h : a = base
    · have hcnt : (a :: as).countP (fun a => !(a == base)) = as.countP (fun a => !(a == base)) := by
        rw [List.countP_cons]
        simp [h]
      have hstep : expandPos rp base seqs (a :: as) = expandPos rp base seqs as := by
        unfold expandPos
        simp [h]
      rw [hstep, hcnt, ih seqs]
    · have hcnt : (a :: as).countP (fun a => !(a == base)) = as.countP (fun a => !(a == base)) + 1 := by
        rw [List.countP_cons]
        simp [h]
      have hstep : expandPos rp base seqs (a :: as) =
          expandPos rp base (seqs ++ seqs.map (fun s => substitute s rp a)) as := by
        unfold expandPos
        simp [h]
      rw [hstep, ih, hcnt]
      simp [List.length_append, List.length_map, pow_succ]
      ring

theorem go_indel_prefix (snp : Nat → Option (List Char)) (indel : Nat → Bool)
    (orig : List Char) :
    ∀ (pre : List (Nat × Nat)) (rp ip : Nat) (post : List (Nat × Nat))
      (seqs : List (List Char)) (res : Dispositions),
      indel ip = true →
      seqs.length * expAll snp orig pre ≤ MAX_SEQS_PER_READ →
      (get_read_seqs_go snp indel orig (pre ++ (rp, ip) :: post) seqs res).1 = [] ∧
      (get_read_seqs_go snp indel orig (pre ++ (rp, ip) :: post) seqs res).2.toss_indel =
        res.toss_indel + 1 ∧
      (get_read_seqs_go snp indel orig (pre ++ (rp, ip) :: post) seqs res).2.toss_manysnps =
        res.toss_manysnps ∧
      (get_read_seqs_go snp indel orig (pre ++ (rp, ip) :: post) seqs res).2.no_snps =
        res.no_snps ∧
      (get_read_seqs_go snp indel orig (pre ++ (rp, ip) :: post) seqs res).2.has_snps =
        res.has_snps := by
  intro pre
  induction pre with
  | nil =>
    intro rp ip post seqs res hind _
    have hgo : get_read_seqs_go snp indel orig
        (([] : List (Nat × Nat)) ++ (rp, ip) :: post) seqs res =
        ([], { res with toss_indel := res.toss_indel + 1 }) := by
      simp only [List.nil_append, get_read_seqs_go]
      rw [if_pos hind]
    rw [hgo]
    exact ⟨rfl, rfl, rfl, rfl, rfl⟩
  | cons hd tl ih =>
    intro rp ip post seqs res hind hcap
    obtain ⟨rp0, p0⟩ := hd
    by_cases hi : indel p0 = true
    · have hgo : get_read_seqs_go snp indel orig
          (((rp0, p0) :: tl) ++ (rp, ip) :: post) seqs res =
          ([], { res with toss_indel := res.toss_indel + 1 }) := by
        simp only [List.cons_append, get_read_seqs_go]
        rw [if_pos hi]
      rw [hgo]
      exact ⟨rfl, rfl, rfl, rfl, rfl⟩
    · have hExp := expAll_cons snp orig (rp0, p0) tl
      have hlen : seqs.length ≤ MAX_SEQS_PER_READ := by
        calc seqs.length = seqs.length * 1 := (mul_one _).symm
        _ ≤ seqs.length * expAll snp orig ((rp0, p0) :: tl) :=
          Nat.mul_le_mul_left _ (expAll_pos snp orig _)
        _ ≤ MAX_SEQS_PER_READ := hcap
      have hnc : ¬ seqs.length > MAX_SEQS_PER_READ := Nat.not_lt.mpr hlen
      cases hs : snp p0 with
      | none =>
        have hcap2 : seqs.length * expAll snp orig tl ≤ MAX_SEQS_PER_READ := by
          have hpf : posFactor snp orig (rp0, p0) = 1 := by
            simp only [posFactor, hs]
          rw [hExp, hpf, one_mul] at hcap
          exact hcap
        have hgo : get_read_seqs_go snp indel orig
            (((rp0, p0) :: tl) ++ (rp, ip) :: post) seqs res =
            get_read_seqs_go snp indel orig (tl ++ (rp, ip) :: post) seqs res := by
          simp only [List.cons_append, get_read_seqs_go]
          rw [if_neg hi, if_neg hnc]
          simp only [hs]
          rfl
        rw [hgo]
        exact ih rp ip post seqs res hind hcap2
      | some alleles =>
        by_cases hb : orig.getD rp0 ' ' ∈ alleles
        · have hpf : posFactor snp orig (rp0, p0) =
              2 ^ (alleles.countP (fun a => !(a == orig.getD rp0 ' '))) := by
            simp only [posFactor, hs]
            rw [if_pos hb]
          have hcap2 : (expandPos rp0 (orig.getD rp0 ' ') seqs alleles).length *
              expAll snp orig tl ≤ MAX_SEQS_PER_READ := by
            rw [expandPos_length]
            calc seqs.length * 2 ^ (alleles.countP (fun a => !(a == orig.getD rp0 ' '))) *
                expAll snp orig tl
                = seqs.length * (posFactor snp orig (rp0, p0) * expAll snp orig tl) := by
                  rw [hpf]; ring
            _ = seqs.length * expAll snp orig ((rp0, p0) :: tl) := by rw [hExp]
            _ ≤ MAX_SEQS_PER_READ := hcap
          have hgo : get_read_seqs_go snp indel orig
              (((rp0, p0) :: tl) ++ (rp, ip) :: post) seqs res =
              get_read_seqs_go snp indel orig (tl ++ (rp, ip) :: post)
                (expandPos rp0 (orig.getD rp0 ' ') seqs alleles)
                { res with ref_match := res.ref_match + 1 } := by
            simp only [List.cons_append, get_read_seqs_go]
            rw [if_neg hi, if_neg hnc]
            simp only [hs]
            rw [if_pos hb]
            rfl
          rw [hgo]
          exact ih rp ip post _ _ hind hcap2
        · have hcap2 : seqs.length * expAll snp orig tl ≤ MAX_SEQS_PER_READ := by
            have hpf : posFactor snp orig (rp0, p0) = 1 := by
              simp only [posFactor, hs]
              rw [if_neg hb]
            rw [hExp, hpf, one_mul] at hcap
            exact hcap
          have hgo : get_read_seqs_go snp indel orig
              (((rp0, p0) :: tl) ++ (rp, ip) :: post) seqs res =
              get_read_seqs_go snp indel orig (tl ++ (rp, ip) :: post) seqs
                { res with no_match := res.no_match + 1 } := by
            simp only [List.cons_append, get_read_seqs_go]
            rw [if_neg hi, if_neg hnc]
            simp only [hs]
            rw [if_neg hb]
            rfl
          rw [hgo]
          exact ih rp ip post _ _ hind hcap2

/-- Claim C3, counterexample.  First half (routing): a single-end read covering an
indel-flagged position gets the empty candidate list and `toss_indel` — but the
single-end path calls `write_read_seqs` without a dropped sink, so the original
record is written nowhere, not to the "dropped" partition.  Second half
(disposition): `rBig` covers the indel-flagged position 102, but its first aligned
pair covers a SNP with eleven differing alleles, growing the candidate list to
2048 — the cap check fires at the second pair, before the indel pair is reached,
so the read gets `toss_manysnps` and `toss_indel` stays 0, against the claim's
unconditional `toss_indel`. -/
theorem single_end_indel_not_dropped :
    ((assign_reads_single snpDel (get_indels snpDel) [rDel]).results.toss_indel = 1 ∧
      (assign_reads_single snpDel (get_indels snpDel) [rDel]).dropped = [] ∧
      (assign_reads_single snpDel (get_indels snpDel) [rDel]).keep = [] ∧
      (assign_reads_single snpDel (get_indels snpDel) [rDel]).remap = []) ∧
    (get_indels snpBig 102 = true ∧
      (get_read_seqs snpBig (get_indels snpBig) rBig d0).1 = [] ∧
      (get_read_seqs snpBig (get_indels snpBig) rBig d0).2.toss_manysnps = 1 ∧
      (get_read_seqs snpBig (get_indels snpBig) rBig d0).2.toss_indel = 0) := by
  constructor
  · decide
  · have hlen : (expandPos 0 'A' [rBig.seq]
        ['A', 'B', 'C', 'D', 'E', 'F', 'G', 'H', 'I', 'J', 'K', 'L']).length = 2048 := by
      rw [expandPos_length]
      decide
    have hstep1 : get_read_seqs snpBig (get_indels snpBig) rBig d0 =
        get_read_seqs_go snpBig (get_indels snpBig) rBig.seq [(1, 101), (2, 102)]
          (expandPos 0 'A' [rBig.seq]
            ['A', 'B', 'C', 'D', 'E', 'F', 'G', 'H', 'I', 'J', 'K', 'L'])
          ⟨0, 0, 0, 0, 0, 1, 0⟩ := by
      unfold get_read_seqs
      show get_read_seqs_go snpBig (get_indels snpBig) rBig.seq
        ((0, 100) :: [(1, 101), (2, 102)]) [rBig.seq] d0 = _
      simp only [get_read_seqs_go]
      rw [if_neg (by decide : ¬ get_indels snpBig 100 = true)]
      rw [if_neg (by decide : ¬ ([rBig.seq] : List (List Char)).length > MAX_SEQS_PER_READ)]
      have hs : snpBig 100 =
          some ['A', 'B', 'C', 'D', 'E', 'F', 'G', 'H', 'I', 'J', 'K', 'L'] := rfl
      simp only [hs]
      rw [if_pos (by decide : rBig.seq.getD 0 ' ' ∈
        ['A', 'B', 'C', 'D', 'E', 'F', 'G', 'H', 'I', 'J', 'K', 'L'])]
      rfl
    have hstep2 : get_read_seqs_go snpBig (get_indels snpBig) rBig.seq [(1, 101), (2, 102)]
        (expandPos 0 'A' [rBig.seq]
          ['A', 'B', 'C', 'D', 'E', 'F', 'G', 'H', 'I', 'J', 'K', 'L'])
        ⟨0, 0, 0, 0, 0, 1, 0⟩ = ([], ⟨0, 1, 0, 0, 0, 1, 0⟩) := by
      show get_read_seqs_go snpBig (get_indels snpBig) rBig.seq
        ((1, 101) :: [(2, 102)]) _ _ = _
      simp only [get_read_seqs_go]
      rw [if_neg (by decide : ¬ get_indels snpBig 101 = true)]
      rw [if_pos (by rw [hlen]; decide)]
    have hall : get_read_seqs snpBig (get_indels snpBig) rBig d0 =
        ([], ⟨0, 1, 0, 0, 0, 1, 0⟩) := by
      rw [hstep1, hstep2]
    rw [hall]
    exact ⟨by decide, rfl, rfl, rfl⟩

theorem write_read_seqs_drop (both : List (AlignedRead × List (List Char))) (rn : Nat)
    (h : numSeqsOf both = 0) :
    write_read_seqs both true rn = ⟨[], [], both.map (fun b => b.1), [], 0⟩ ∧
    write_read_seqs both false rn = ⟨[], [], [], [], 0⟩ := by
  constructor
  · simp only [write_read_seqs]
    rw [if_pos (Or.inl h)]
    rfl
  · simp only [write_read_seqs]
    rw [if_pos (Or.inl h)]
    rfl

/-- Claim C3 as amended: any indel-flagged position covered by either mate makes
the paired generator return empty lists with `toss_indel`, unconditionally; the
single-end generator does the same provided the candidate list is still within
the cap when the indel-flagged pair is reached — its length at that point is
exactly the product `expAll` of the per-position doubling factors over the
preceding aligned pairs (when the list overflows at an earlier pair,
`toss_manysnps` fires instead; see the counterexample's second half); and
`write_read_seqs` routes the original records to the dropped partition only when
a dropped sink is supplied — the paired caller supplies one, the single-end
caller does not, so single-end drops are discarded without being written. -/
theorem indel_disqualifies_amended :
    (∀ (snp : Nat → Option (List Char)) (indel : Nat → Bool) (r1 r2 : AlignedRead)
        (res : Dispositions),
      ((∃ pr ∈ r1.aligned_pairs, indel pr.2 = true) ∨
        (∃ pr ∈ r2.aligned_pairs, indel pr.2 = true)) →
      get_dual_read_seqs snp indel r1 r2 res =
        (([], []), { res with toss_indel := res.toss_indel + 1 })) ∧
    (∀ (snp : Nat → Option (List Char)) (indel : Nat → Bool) (r : AlignedRead)
        (res : Dispositions) (pre post : List (Nat × Nat)) (rp ip : Nat),
      r.aligned_pairs = pre ++ (rp, ip) :: post →
      indel ip = true →
      expAll snp r.seq pre ≤ MAX_SEQS_PER_READ →
      (get_read_seqs snp indel r res).1 = [] ∧
      (get_read_seqs snp indel r res).2.toss_indel = res.toss_indel + 1) ∧
    (∀ (both : List (AlignedRead × List (List Char))) (rn : Nat),
      numSeqsOf both = 0 →
      write_read_seqs both true rn = ⟨[], [], both.map (fun b => b.1), [], 0⟩ ∧
      write_read_seqs both false rn = ⟨[], [], [], [], 0⟩) := by
  refine ⟨?_, ?_, ?_⟩
  · intro snp indel r1 r2 res h
    have hnone : dualOverlap snp indel r1 r2 = none := by
      unfold dualOverlap
      cases h1 : scanPairs snp indel false r1.aligned_pairs [] [] with
      | none => rfl
      | some out =>
        rcases h with hA | hB
        · rw [scanPairs_none_of_indel snp indel false r1.aligned_pairs [] [] hA] at h1
          cases h1
        · exact scanPairs_none_of_indel snp indel true r2.aligned_pairs out.1 out.2 hB
    unfold get_dual_read_seqs
    rw [hnone]
  · intro snp indel r res pre post rp ip hsplit hind hcap
    have hcap1 : ([r.seq] : List (List Char)).length * expAll snp r.seq pre ≤
        MAX_SEQS_PER_READ := by
      rw [List.length_singleton, one_mul]
      exact hcap
    unfold get_read_seqs
    rw [hsplit]
    obtain ⟨h1, h2, _, _, _⟩ :=
      go_indel_prefix snp indel r.seq pre rp ip post [r.seq] res hind hcap1
    exact ⟨h1, h2⟩
  · intro both rn h
    exact write_read_seqs_drop both rn h

/-- Witness for `indel_disqualifies_amended`: the pair covers the deletion-flagged
position 100 of `snpDel`; the single-end read `rIndelFirst` covers the
deletion-flagged position 102 of `snpBig` at its first aligned pair with the
eleven-alternate SNP only after it (so `expAll` over the prefix is 1 although the
whole read's potential growth is 2048); and the empty candidate list at the write
stage. -/
theorem indel_disqualifies_amended_witness :
    get_dual_read_seqs snpDel (get_indels snpDel) rDel rEmpty2 d0 =
      (([], []), ⟨1, 0, 0, 0, 0, 0, 0⟩) ∧
    ((get_read_seqs snpBig (get_indels snpBig) rIndelFirst d0).1 = [] ∧
      (get_read_seqs snpBig (get_indels snpBig) rIndelFirst d0).2.toss_indel = 1) ∧
    (write_read_seqs [(rDel, [])] true 0 = ⟨[], [], [rDel], [], 0⟩ ∧
      write_read_seqs [(rDel, [])] false 0 = ⟨[], [], [], [], 0⟩) :=
  ⟨indel_disqualifies_amended.1 snpDel (get_indels snpDel) rDel rEmpty2 d0
      (Or.inl (by decide)),
    indel_disqualifies_amended.2.1 snpBig (get_indels snpBig) rIndelFirst d0
      [] [(1, 100)] 0 102 rfl (by decide) (by decide),
    indel_disqualifies_amended.2.2 [(rDel, [])] 0 (by decide)⟩

/-! Supporting lemmas for the no-variant and single-SNP paths. -/

theorem go_skip_none (snp : Nat → Option (List Char)) (indel : Nat → Bool)
    (orig : List Char) :
    ∀ (pre rest : List (Nat × Nat)) (seqs : List (List Char)) (res : Dispositions),
      (∀ pr ∈ pre, snp pr.2 = none) → (∀ pr ∈ pre, indel pr.2 = false) →
      seqs.length ≤ MAX_SEQS_PER_READ →
      get_read_seqs_go snp indel orig (pre ++ rest) seqs res =
        get_read_seqs_go snp indel orig rest seqs res := by
  intro pre
  induction pre with
  | nil => intro rest seqs res _ _ _; rfl
  | cons hd tl ih =>
    intro rest seqs res hsnp hind hlen
    obtain ⟨rp, refp⟩ := hd
    have hi : ¬ indel refp = true := by
      have := hind (rp, refp) (List.mem_cons_self _ _)
      simp [this]
    have hs : snp refp = none := hsnp (rp, refp) (List.mem_cons_self _ _)
    have hnc : ¬ seqs.length > MAX_SEQS_PER_READ := Nat.not_lt.mpr hlen
    have hgo : get_read_seqs_go snp indel orig (((rp, refp) :: tl) ++ rest) seqs res =
        get_read_seqs_go snp indel orig (tl ++ rest) seqs res := by
      simp only [List.cons_append, get_read_seqs_go]
      rw [if_neg hi, if_neg hnc]
      simp only [hs]
      rfl
    rw [hgo]
    exact ih rest seqs res (fun pr h => hsnp pr (List.mem_cons_of_mem _ h))
      (fun pr h => hind pr (List.mem_cons_of_mem _ h)) hlen

theorem scanPairs_id_of_no_snp (snp : Nat → Option (List Char)) (indel : Nat → Bool)
    (m : Bool) :
    ∀ (pairs : List (Nat × Nat)) (snps : List (Nat × List Char)) (posns : Posns),
      (∀ pr ∈ pairs, snp pr.2 = none) → (∀ pr ∈ pairs, indel pr.2 = false) →
      scanPairs snp indel m pairs snps posns = some (snps, posns) := by
  intro pairs
  induction pairs with
  | nil => intro snps posns _ _; rfl
  | cons hd tl ih =>
    intro snps posns hsnp hind
    obtain ⟨rp, refp⟩ := hd
    have hi : ¬ indel refp = true := by
      have := hind (rp, refp) (List.mem_cons_self _ _)
      simp [this]
    have hs : snp refp = none := hsnp (rp, refp) (List.mem_cons_self _ _)
    have hstep : scanPairs snp indel m ((rp, refp) :: tl) snps posns =
        scanPairs snp indel m tl snps posns := by
      simp only [scanPairs]
      rw [if_neg hi]
      simp only [hs]
    rw [hstep]
    exact ih snps posns (fun pr h => hsnp pr (List.mem_cons_of_mem _ h))
      (fun pr h => hind pr (List.mem_cons_of_mem _ h))

/-- Claim C6: a read (or mate pair) none of whose aligned positions overlaps a
variant gets a one-entry candidate list holding exactly the original sequence(s),
with `no_snps` incremented; the indel table is derived from the same SNP table as
in the program's wiring (`INDEL_DICT = get_indels(SNP_DICT)`). -/
theorem no_snps_identity :
    (∀ (snp : Nat → Option (List Char)) (r : AlignedRead) (res : Dispositions),
      (∀ pr ∈ r.aligned_pairs, snp pr.2 = none) →
      get_read_seqs snp (get_indels snp) r res =
        ([r.seq], { res with no_snps := res.no_snps + 1 })) ∧
    (∀ (snp : Nat → Option (List Char)) (r1 r2 : AlignedRead) (res : Dispositions),
      (∀ pr ∈ r1.aligned_pairs, snp pr.2 = none) →
      (∀ pr ∈ r2.aligned_pairs, snp pr.2 = none) →
      get_dual_read_seqs snp (get_indels snp) r1 r2 res =
        (([r1.seq], [r2.seq]), { res with no_snps := res.no_snps + 1 })) := by
  constructor
  · intro snp r res h
    have hind : ∀ pr ∈ r.aligned_pairs, get_indels snp pr.2 = false := by
      intro pr hm
      simp [get_indels, h pr hm]
    unfold get_read_seqs
    have hskip := go_skip_none snp (get_indels snp) r.seq r.aligned_pairs [] [r.seq] res
      h hind (len_one_le_cap r.seq)
    rw [List.append_nil] at hskip
    rw [hskip]
    simp only [get_read_seqs_go]
    rw [if_pos (List.length_singleton r.seq)]
  · intro snp r1 r2 res h1 h2
    have hi1 : ∀ pr ∈ r1.aligned_pairs, get_indels snp pr.2 = false := by
      intro pr hm; simp [get_indels, h1 pr hm]
    have hi2 : ∀ pr ∈ r2.aligned_pairs, get_indels snp pr.2 = false := by
      intro pr hm; simp [get_indels, h2 pr hm]
    have hscan : dualOverlap snp (get_indels snp) r1 r2 = some ([], []) := by
      unfold dualOverlap
      rw [scanPairs_id_of_no_snp snp (get_indels snp) false r1.aligned_pairs [] [] h1 hi1]
      exact scanPairs_id_of_no_snp snp (get_indels snp) true r2.aligned_pairs [] [] h2 hi2
    unfold get_dual_read_seqs
    rw [hscan]
    rfl

/-- Witness for `no_snps_identity` on reads that overlap no entry of `snpAG`. -/
theorem no_snps_identity_witness :
    get_read_seqs snpAG (get_indels snpAG) rN1 d0 = ([rN1.seq], ⟨0, 0, 0, 1, 0, 0, 0⟩) ∧
    get_dual_read_seqs snpAG (get_indels snpAG) rN1 rN2 d0 =
      (([rN1.seq], [rN2.seq]), ⟨0, 0, 0, 1, 0, 0, 0⟩) :=
  ⟨no_snps_identity.1 snpAG rN1 d0 (by decide),
    no_snps_identity.2 snpAG rN1 rN2 d0 (by decide) (by decide)⟩

/-- Claim C7: a single-end read whose aligned pairs meet exactly one SNP position,
carrying a two-symbol allele string with one symbol equal to the observed base and
the other different, gets exactly two candidates — the original and the original
with the differing allele substituted at that offset — and `has_snps` (together
with the `ref_match` bookkeeping counter) is incremented. -/
theorem single_snp_two_candidates (snp : Nat → Option (List Char)) (indel : Nat → Bool)
    (r : AlignedRead) (res : Dispositions) (pre post : List (Nat × Nat))
    (rp0 p0 : Nat) (x y : Char)
    (hsplit : r.aligned_pairs = pre ++ (rp0, p0) :: post)
    (hpre : ∀ pr ∈ pre, snp pr.2 = none)
    (hpost : ∀ pr ∈ post, snp pr.2 = none)
    (hind : ∀ pr ∈ r.aligned_pairs, indel pr.2 = false)
    (hsnp : snp p0 = some [x, y])
    (hcase : (r.seq.getD rp0 ' ' = x ∧ y ≠ x) ∨ (r.seq.getD rp0 ' ' = y ∧ x ≠ y)) :
    get_read_seqs snp indel r res =
      ([r.seq, substitute r.seq rp0 (if r.seq.getD rp0 ' ' = x then y else x)],
        { res with ref_match := res.ref_match + 1, has_snps := res.has_snps + 1 }) := by
  have hindpre : ∀ pr ∈ pre, indel pr.2 = false := by
    intro pr h
    exact hind pr (by rw [hsplit]; exact List.mem_append_left _ h)
  have hindpost : ∀ pr ∈ post, indel pr.2 = false := by
    intro pr h
    exact hind pr
      (by rw [hsplit]; exact List.mem_append_right _ (List.mem_cons_of_mem _ h))
  have hi : ¬ indel p0 = true := by
    have := hind (rp0, p0)
      (by rw [hsplit]; exact List.mem_append_right _ (List.mem_cons_self _ _))
    simp [this]
  have hb : r.seq.getD rp0 ' ' ∈ [x, y] := by
    rcases hcase with ⟨h, _⟩ | ⟨h, _⟩
    · rw [h]; exact List.mem_cons_self _ _
    · rw [h]; exact List.mem_cons_of_mem _ (List.mem_cons_self _ _)
  unfold get_read_seqs
  rw [hsplit]
  rw [go_skip_none snp indel r.seq pre ((rp0, p0) :: post) [r.seq] res hpre hindpre
    (len_one_le_cap r.seq)]
  have hnc : ¬ ([r.seq] : List (List Char)).length > MAX_SEQS_PER_READ :=
    Nat.not_lt.mpr (len_one_le_cap r.seq)
  have hgo : get_read_seqs_go snp indel r.seq ((rp0, p0) :: post) [r.seq] res =
      get_read_seqs_go snp indel r.seq post
        (expandPos rp0 (r.seq.getD rp0 ' ') [r.seq] [x, y])
        { res with ref_match := res.ref_match + 1 } := by
    simp only [get_read_seqs_go]
    rw [if_neg hi, if_neg hnc]
    simp only [hsnp]
    rw [if_pos hb]
  rw [hgo]
  have hexp : expandPos rp0 (r.seq.getD rp0 ' ') [r.seq] [x, y] =
      [r.seq, substitute r.seq rp0 (if r.seq.getD rp0 ' ' = x then y else x)] := by
    rcases hcase with ⟨h, hyx⟩ | ⟨h, hxy⟩
    · rw [if_pos h]
      unfold expandPos
      simp only [List.foldl_cons, List.foldl_nil]
      rw [if_neg (show ¬ y = r.seq.getD rp0 ' ' by rw [h]; exact hyx)]
      rw [if_pos (show x = r.seq.getD rp0 ' ' from h.symm)]
      rfl
    · have hnx : ¬ r.seq.getD rp0 ' ' = x := by
        rw [h]
        exact Ne.symm hxy
      rw [if_neg hnx]
      unfold expandPos
      simp only [List.foldl_cons, List.foldl_nil]
      rw [if_pos (show y = r.seq.getD rp0 ' ' from h.symm)]
      rw [if_neg (show ¬ x = r.seq.getD rp0 ' ' by rw [h]; exact hxy)]
      rfl
  rw [hexp]
  have hskip := go_skip_none snp indel r.seq post []
    [r.seq, substitute r.seq rp0 (if r.seq.getD rp0 ' ' = x then y else x)]
    { res with ref_match := res.ref_match + 1 } hpost hindpost (len_two_le_cap _ _)
  rw [List.append_nil] at hskip
  rw [hskip]
  simp only [get_read_seqs_go]
  rw [if_neg (by simp :
    ¬ ([r.seq, substitute r.seq rp0 (if r.seq.getD rp0 ' ' = x then y else x)].length = 1))]

/-- Witness for `single_snp_two_candidates` on a one-base read observing `A` over
the biallelic `AG` SNP. -/
theorem single_snp_two_candidates_witness :
    get_read_seqs snpAG ind0 rS1 d0 = ([['A'], ['G']], ⟨0, 0, 0, 0, 1, 1, 0⟩) :=
  single_snp_two_candidates snpAG ind0 rS1 d0 [] [] 0 100 'A' 'G' rfl (by decide)
    (by decide) (by decide) (by decide) (Or.inl ⟨rfl, by decide⟩)

/-! Supporting lemmas for the list invariants (claims C8 and C4). -/

theorem substitute_length (s : List Char) (p : Nat) (c : Char) (h : p < s.length) :
    (substitute s p c).length = s.length := by
  simp only [substitute, List.length_append, List.length_take, List.length_cons,
    List.length_drop]
  rw [Nat.min_eq_left (Nat.le_of_lt h)]
  omega

theorem substitute_getD_ne (s : List Char) :
    ∀ (p o : Nat) (c d : Char), p < s.length → o ≠ p →
      (substitute s p c).getD o d = s.getD o d := by
  induction s with
  | nil => intro p o c d h _; simp at h
  | cons a s ih =>
    intro p o c d h hne
    cases p with
    | zero =>
      have hsub : substitute (a :: s) 0 c = c :: s := by
        simp [substitute]
      rw [hsub]
      cases o with
      | zero => exact absurd rfl hne
      | succ k => simp [List.getD_cons_succ]
    | succ q =>
      have hsub : substitute (a :: s) (q + 1) c = a :: substitute s q c := by
        simp [substitute]
      rw [hsub]
      cases o with
      | zero => simp [List.getD_cons_zero]
      | succ k =>
        simp only [List.getD_cons_succ]
        exact ih q k c d (by simpa using h) (fun hk => hne (by rw [hk]))

theorem mem_of_getLast?_eq {α : Type} (l : List α) (a : α) (h : l.getLast? = some a) :
    a ∈ l := by
  induction l with
  | nil => cases h
  | cons x xs ih =>
    cases xs with
    | nil =>
      have : x = a := by simpa using h
      rw [this]
      exact List.mem_cons_self _ _
    | cons y ys =>
      rw [List.getLast?_cons_cons] at h
      exact List.mem_cons_of_mem _ (ih h)

theorem rebind_fst_prop (ls1 ls2 : List (List Char)) (c1 c2 : List Char)
    (P1 : List Char → Prop) (hm1 : ∀ s ∈ ls1, P1 s) (h1 : P1 c1) :
    P1 (rebind ls1 ls2 c1 c2).1 := by
  unfold rebind
  cases hq : (ls1.zip ls2).getLast? with
  | none => exact h1
  | some q => exact hm1 q.1 (List.of_mem_zip (mem_of_getLast?_eq _ _ hq)).1

theorem rebind_snd_prop (ls1 ls2 : List (List Char)) (c1 c2 : List Char)
    (P2 : List Char → Prop) (hm2 : ∀ s ∈ ls2, P2 s) (h2 : P2 c2) :
    P2 (rebind ls1 ls2 c1 c2).2 := by
  unfold rebind
  cases hq : (ls1.zip ls2).getLast? with
  | none => exact h2
  | some q => exact hm2 q.2 (List.of_mem_zip (mem_of_getLast?_eq _ _ hq)).2

theorem foldOnly2_inv (o2 : Nat) (ls1 ls2 : List (List Char)) (P1 P2 : List Char → Prop)
    (hsub2 : ∀ s, P2 s → ∀ a, P2 (substitute s o2 a))
    (hm1 : ∀ s ∈ ls1, P1 s) (hm2 : ∀ s ∈ ls2, P2 s) :
    ∀ (alleles : List Char) (acc : AlleleAcc),
      P1 acc.c1 → P2 acc.c2 → (∀ s ∈ acc.n1, P1 s) → (∀ s ∈ acc.n2, P2 s) →
      P1 (alleles.foldl (stepOnly2 o2 ls1 ls2) acc).c1 ∧
      P2 (alleles.foldl (stepOnly2 o2 ls1 ls2) acc).c2 ∧
      (∀ s ∈ (alleles.foldl (stepOnly2 o2 ls1 ls2) acc).n1, P1 s) ∧
      (∀ s ∈ (alleles.foldl (stepOnly2 o2 ls1 ls2) acc).n2, P2 s) := by
  intro alleles
  induction alleles with
  | nil => intro acc h1 h2 h3 h4; exact ⟨h1, h2, h3, h4⟩
  | cons a as ih =>
    intro acc h1 h2 h3 h4
    simp only [List.foldl_cons]
    by_cases hc : a = acc.c2.getD o2 ' '
    · have hstep : stepOnly2 o2 ls1 ls2 acc a = acc := by
        unfold stepOnly2; rw [if_pos hc]
      rw [hstep]
      exact ih acc h1 h2 h3 h4
    · have hstep : stepOnly2 o2 ls1 ls2 acc a =
          ⟨(rebind ls1 ls2 acc.c1 acc.c2).1, (rebind ls1 ls2 acc.c1 acc.c2).2,
            acc.n1 ++ (ls1.zip ls2).map (fun q => q.1),
            acc.n2 ++ (ls1.zip ls2).map (fun q => substitute q.2 o2 a)⟩ := by
        unfold stepOnly2; rw [if_neg hc]
      rw [hstep]
      apply ih
      · exact rebind_fst_prop ls1 ls2 acc.c1 acc.c2 P1 hm1 h1
      · exact rebind_snd_prop ls1 ls2 acc.c1 acc.c2 P2 hm2 h2
      · intro s hs
        rcases List.mem_append.mp hs with h | h
        · exact h3 s h
        · obtain ⟨q, hq, rfl⟩ := List.mem_map.mp h
          exact hm1 q.1 (List.of_mem_zip hq).1
      · intro s hs
        rcases List.mem_append.mp hs with h | h
        · exact h4 s h
        · obtain ⟨q, hq, rfl⟩ := List.mem_map.mp h
          exact hsub2 q.2 (hm2 q.2 (List.of_mem_zip hq).2) a

theorem foldOnly1_inv (o1 : Nat) (ls1 ls2 : List (List Char)) (P1 P2 : List Char → Prop)
    (hsub1 : ∀ s, P1 s → ∀ a, P1 (substitute s o1 a))
    (hm1 : ∀ s ∈ ls1, P1 s) (hm2 : ∀ s ∈ ls2, P2 s) :
    ∀ (alleles : List Char) (acc : AlleleAcc),
      P1 acc.c1 → P2 acc.c2 → (∀ s ∈ acc.n1, P1 s) → (∀ s ∈ acc.n2, P2 s) →
      P1 (alleles.foldl (stepOnly1 o1 ls1 ls2) acc).c1 ∧
      P2 (alleles.foldl (stepOnly1 o1 ls1 ls2) acc).c2 ∧
      (∀ s ∈ (alleles.foldl (stepOnly1 o1 ls1 ls2) acc).n1, P1 s) ∧
      (∀ s ∈ (alleles.foldl (stepOnly1 o1 ls1 ls2) acc).n2, P2 s) := by
  intro alleles
  induction alleles with
  | nil => intro acc h1 h2 h3 h4; exact ⟨h1, h2, h3, h4⟩
  | cons a as ih =>
    intro acc h1 h2 h3 h4
    simp only [List.foldl_cons]
    by_cases hc : a = acc.c1.getD o1 ' '
    · have hstep : stepOnly1 o1 ls1 ls2 acc a = acc := by
        unfold stepOnly1; rw [if_pos hc]
      rw [hstep]
      exact ih acc h1 h2 h3 h4
    · have hstep : stepOnly1 o1 ls1 ls2 acc a =
          ⟨(rebind ls1 ls2 acc.c1 acc.c2).1, (rebind ls1 ls2 acc.c1 acc.c2).2,
            acc.n1 ++ (ls1.zip ls2).map (fun q => substitute q.1 o1 a),
            acc.n2 ++ (ls1.zip ls2).map (fun q => q.2)⟩ := by
        unfold stepOnly1; rw [if_neg hc]
      rw [hstep]
      apply ih
      · exact rebind_fst_prop ls1 ls2 acc.c1 acc.c2 P1 hm1 h1
      · exact rebind_snd_prop ls1 ls2 acc.c1 acc.c2 P2 hm2 h2
      · intro s hs
        rcases List.mem_append.mp hs with h | h
        · exact h3 s h
        · obtain ⟨q, hq, rfl⟩ := List.mem_map.mp h
          exact hsub1 q.1 (hm1 q.1 (List.of_mem_zip hq).1) a
      · intro s hs
        rcases List.mem_append.mp hs with h | h
        · exact h4 s h
        · obtain ⟨q, hq, rfl⟩ := List.mem_map.mp h
          exact hm2 q.2 (List.of_mem_zip hq).2

theorem foldBoth_inv (o1 o2 : Nat) (ls1 ls2 : List (List Char)) (P1 P2 : List Char → Prop)
    (hsub1 : ∀ s, P1 s → ∀ a, P1 (substitute s o1 a))
    (hsub2 : ∀ s, P2 s → ∀ a, P2 (substitute s o2 a))
    (hm1 : ∀ s ∈ ls1, P1 s) (hm2 : ∀ s ∈ ls2, P2 s) :
    ∀ (alleles : List Char) (acc : AlleleAcc),
      P1 acc.c1 → P2 acc.c2 → (∀ s ∈ acc.n1, P1 s) → (∀ s ∈ acc.n2, P2 s) →
      P1 (alleles.foldl (stepBoth o1 o2 ls1 ls2) acc).c1 ∧
      P2 (alleles.foldl (stepBoth o1 o2 ls1 ls2) acc).c2 ∧
      (∀ s ∈ (alleles.foldl (stepBoth o1 o2 ls1 ls2) acc).n1, P1 s) ∧
      (∀ s ∈ (alleles.foldl (stepBoth o1 o2 ls1 ls2) acc).n2, P2 s) := by
  intro alleles
  induction alleles with
  | nil => intro acc h1 h2 h3 h4; exact ⟨h1, h2, h3, h4⟩
  | cons a as ih =>
    intro acc h1 h2 h3 h4
    simp only [List.foldl_cons]
    by_cases hc : a = acc.c2.getD o2 ' '
    · have hstep : stepBoth o1 o2 ls1 ls2 acc a = acc := by
        unfold stepBoth; rw [if_pos hc]
      rw [hstep]
      exact ih acc h1 h2 h3 h4
    · have hstep : stepBoth o1 o2 ls1 ls2 acc a =
          ⟨(rebind ls1 ls2 acc.c1 acc.c2).1, (rebind ls1 ls2 acc.c1 acc.c2).2,
            acc.n1 ++ (ls1.zip ls2).map (fun q => substitute q.1 o1 a),
            acc.n2 ++ (ls1.zip ls2).map (fun q => substitute q.2 o2 a)⟩ := by
        unfold stepBoth; rw [if_neg hc]
      rw [hstep]
      apply ih
      · exact rebind_fst_prop ls1 ls2 acc.c1 acc.c2 P1 hm1 h1
      · exact rebind_snd_prop ls1 ls2 acc.c1 acc.c2 P2 hm2 h2
      · intro s hs
        rcases List.mem_append.mp hs with h | h
        · exact h3 s h
        · obtain ⟨q, hq, rfl⟩ := List.mem_map.mp h
          exact hsub1 q.1 (hm1 q.1 (List.of_mem_zip hq).1) a
      · intro s hs
        rcases List.mem_append.mp hs with h | h
        · exact h4 s h
        · obtain ⟨q, hq, rfl⟩ := List.mem_map.mp h
          exact hsub2 q.2 (hm2 q.2 (List.of_mem_zip hq).2) a

theorem stepPos_inv (P1 P2 : List Char → Prop) (st : DualState) (alleles : List Char)
    (po : Option Nat × Option Nat)
    (hsub1 : ∀ u, po.1 = some u → ∀ s, P1 s → ∀ a, P1 (substitute s u a))
    (hsub2 : ∀ v, po.2 = some v → ∀ s, P2 s → ∀ a, P2 (substitute s v a))
    (h1 : P1 st.cs1) (h2 : P2 st.cs2)
    (hm1 : ∀ s ∈ st.ls1, P1 s) (hm2 : ∀ s ∈ st.ls2, P2 s) :
    stepPos st alleles po = .abort ∨
    ∃ st2, stepPos st alleles po = .ok st2 ∧ P1 st2.cs1 ∧ P2 st2.cs2 ∧
      (∀ s ∈ st2.ls1, P1 s) ∧ (∀ s ∈ st2.ls2, P2 s) ∧
      (∃ n1, st2.ls1 = st.ls1 ++ n1) ∧ (∃ n2, st2.ls2 = st.ls2 ++ n2) := by
  obtain ⟨po1, po2⟩ := po
  cases po1 with
  | none =>
    cases po2 with
    | none =>
      right
      exact ⟨st, rfl, h1, h2, hm1, hm2, ⟨[], (List.append_nil _).symm⟩,
        ⟨[], (List.append_nil _).symm⟩⟩
    | some o2 =>
      right
      have hf := foldOnly2_inv o2 st.ls1 st.ls2 P1 P2 (fun s hs a => hsub2 o2 rfl s hs a)
        hm1 hm2 alleles ⟨st.cs1, st.cs2, [], []⟩ h1 h2 (by intro s hs; cases hs)
        (by intro s hs; cases hs)
      refine ⟨_, rfl, hf.1, hf.2.1, ?_, ?_, ⟨_, rfl⟩, ⟨_, rfl⟩⟩
      · intro s hs
        rcases List.mem_append.mp hs with h | h
        · exact hm1 s h
        · exact hf.2.2.1 s h
      · intro s hs
        rcases List.mem_append.mp hs with h | h
        · exact hm2 s h
        · exact hf.2.2.2 s h
  | some o1 =>
    cases po2 with
    | none =>
      right
      have hf := foldOnly1_inv o1 st.ls1 st.ls2 P1 P2 (fun s hs a => hsub1 o1 rfl s hs a)
        hm1 hm2 alleles ⟨st.cs1, st.cs2, [], []⟩ h1 h2 (by intro s hs; cases hs)
        (by intro s hs; cases hs)
      refine ⟨_, rfl, hf.1, hf.2.1, ?_, ?_, ⟨_, rfl⟩, ⟨_, rfl⟩⟩
      · intro s hs
        rcases List.mem_append.mp hs with h | h
        · exact hm1 s h
        · exact hf.2.2.1 s h
      · intro s hs
        rcases List.mem_append.mp hs with h | h
        · exact hm2 s h
        · exact hf.2.2.2 s h
    | some o2 =>
      by_cases hchk : st.cs1.getD o1 ' ' ≠ st.cs2.getD o2 ' '
      · left
        simp only [stepPos]
        rw [if_pos hchk]
      · right
        have hf := foldBoth_inv o1 o2 st.ls1 st.ls2 P1 P2
          (fun s hs a => hsub1 o1 rfl s hs a) (fun s hs a => hsub2 o2 rfl s hs a)
          hm1 hm2 alleles ⟨st.cs1, st.cs2, [], []⟩ h1 h2 (by intro s hs; cases hs)
          (by intro s hs; cases hs)
        have hok : stepPos st alleles (some o1, some o2) =
            .ok ⟨(alleles.foldl (stepBoth o1 o2 st.ls1 st.ls2) ⟨st.cs1, st.cs2, [], []⟩).c1,
              (alleles.foldl (stepBoth o1 o2 st.ls1 st.ls2) ⟨st.cs1, st.cs2, [], []⟩).c2,
              st.ls1 ++ (alleles.foldl (stepBoth o1 o2 st.ls1 st.ls2) ⟨st.cs1, st.cs2, [], []⟩).n1,
              st.ls2 ++ (alleles.foldl (stepBoth o1 o2 st.ls1 st.ls2) ⟨st.cs1, st.cs2, [], []⟩).n2⟩ := by
          simp only [stepPos]
          rw [if_neg hchk]
        refine ⟨_, hok, hf.1, hf.2.1, ?_, ?_, ⟨_, rfl⟩, ⟨_, rfl⟩⟩
        · intro s hs
          rcases List.mem_append.mp hs with h | h
          · exact hm1 s h
          · exact hf.2.2.1 s h
        · intro s hs
          rcases List.mem_append.mp hs with h | h
          · exact hm2 s h
          · exact hf.2.2.2 s h

theorem dualFold_inv (posns : Posns) (P1 P2 : List Char → Prop) :
    ∀ (S : List (Nat × List Char)) (st : DualState),
      (∀ e ∈ S,
        (∀ u, (posnsGet posns e.1).1 = some u →
          ∀ s, P1 s → ∀ a, P1 (substitute s u a)) ∧
        (∀ v, (posnsGet posns e.1).2 = some v →
          ∀ s, P2 s → ∀ a, P2 (substitute s v a))) →
      P1 st.cs1 → P2 st.cs2 → (∀ s ∈ st.ls1, P1 s) → (∀ s ∈ st.ls2, P2 s) →
      dualFold posns S st = .abort ∨
      ∃ st2, dualFold posns S st = .ok st2 ∧
        (∀ s ∈ st2.ls1, P1 s) ∧ (∀ s ∈ st2.ls2, P2 s) ∧
        (∃ n1, st2.ls1 = st.ls1 ++ n1) ∧ (∃ n2, st2.ls2 = st.ls2 ++ n2) := by
  intro S
  induction S with
  | nil =>
    intro st _ _ _ hm1 hm2
    right
    exact ⟨st, rfl, hm1, hm2, ⟨[], (List.append_nil _).symm⟩,
      ⟨[], (List.append_nil _).symm⟩⟩
  | cons e rest ih =>
    intro st hS h1 h2 hm1 hm2
    obtain ⟨p, alleles⟩ := e
    have hhead := hS (p, alleles) (List.mem_cons_self _ _)
    rcases stepPos_inv P1 P2 st alleles (posnsGet posns p) hhead.1 hhead.2 h1 h2 hm1 hm2
      with habort | ⟨st2, hok, hc1, hc2, hl1, hl2, ⟨n1, hn1⟩, ⟨n2, hn2⟩⟩
    · left
      simp only [dualFold]
      rw [habort]
    · have hrest : ∀ e ∈ rest,
          (∀ u, (posnsGet posns e.1).1 = some u →
            ∀ s, P1 s → ∀ a, P1 (substitute s u a)) ∧
          (∀ v, (posnsGet posns e.1).2 = some v →
            ∀ s, P2 s → ∀ a, P2 (substitute s v a)) :=
        fun e he => hS e (List.mem_cons_of_mem _ he)
      have hfold : dualFold posns ((p, alleles) :: rest) st = dualFold posns rest st2 := by
        simp only [dualFold]
        rw [hok]
      rw [hfold]
      rcases ih st2 hrest hc1 hc2 hl1 hl2
        with habort2 | ⟨st3, hok3, hl31, hl32, ⟨m1, hm1e⟩, ⟨m2, hm2e⟩⟩
      · left; exact habort2
      · right
        refine ⟨st3, hok3, hl31, hl32, ⟨n1 ++ m1, ?_⟩, ⟨n2 ++ m2, ?_⟩⟩
        · rw [hm1e, hn1, List.append_assoc]
        · rw [hm2e, hn2, List.append_assoc]

theorem posnsGet_set (l : Posns) (p : Nat) (v : Option Nat × Option Nat) (p' : Nat) :
    posnsGet (posnsSet l p v) p' = if p = p' then v else posnsGet l p' := by
  by_cases h : p = p'
  · simp [posnsSet, posnsGet, List.find?_cons, h]
  · simp [posnsSet, posnsGet, List.find?_cons, h]

theorem scanPairs_posns_inv (snp : Nat → Option (List Char)) (indel : Nat → Bool)
    (m : Bool) (Q1 Q2 : Nat → Prop) :
    ∀ (pairs : List (Nat × Nat)) (snps : List (Nat × List Char)) (posns : Posns)
      (S : List (Nat × List Char)) (P : Posns),
      scanPairs snp indel m pairs snps posns = some (S, P) →
      (∀ p u, (posnsGet posns p).1 = some u → Q1 u) →
      (∀ p v, (posnsGet posns p).2 = some v → Q2 v) →
      (m = false → ∀ pr ∈ pairs, Q1 pr.1) →
      (m = true → ∀ pr ∈ pairs, Q2 pr.1) →
      (∀ p u, (posnsGet P p).1 = some u → Q1 u) ∧
      (∀ p v, (posnsGet P p).2 = some v → Q2 v) := by
  intro pairs
  induction pairs with
  | nil =>
    intro snps posns S P hscan hp1 hp2 _ _
    simp only [scanPairs, Option.some.injEq, Prod.mk.injEq] at hscan
    obtain ⟨_, hP⟩ := hscan
    rw [← hP]
    exact ⟨hp1, hp2⟩
  | cons hd tl ih =>
    intro snps posns S P hscan hp1 hp2 hq1 hq2
    obtain ⟨rp, refp⟩ := hd
    by_cases hi : indel refp = true
    · rw [scanPairs_none_of_indel snp indel m ((rp, refp) :: tl) snps posns
        ⟨(rp, refp), List.mem_cons_self _ _, hi⟩] at hscan
      cases hscan
    · cases hs : snp refp with
      | none =>
        have hstep : scanPairs snp indel m ((rp, refp) :: tl) snps posns =
            scanPairs snp indel m tl snps posns := by
          simp only [scanPairs]
          rw [if_neg hi]
          simp only [hs]
        rw [hstep] at hscan
        exact ih snps posns S P hscan hp1 hp2
          (fun hm pr h => hq1 hm pr (List.mem_cons_of_mem _ h))
          (fun hm pr h => hq2 hm pr (List.mem_cons_of_mem _ h))
      | some alleles =>
        cases m with
        | false =>
          have hstep : scanPairs snp indel false ((rp, refp) :: tl) snps posns =
              scanPairs snp indel false tl (upsertSnps snps refp alleles)
                (posnsSet posns refp (some rp, (posnsGet posns refp).2)) := by
            simp only [scanPairs]
            rw [if_neg hi]
            simp only [hs]
            rfl
          rw [hstep] at hscan
          apply ih _ _ S P hscan
          · intro p u hu
            rw [posnsGet_set] at hu
            by_cases hpq : refp = p
            · rw [if_pos hpq] at hu
              have : rp = u := by simpa using hu
              rw [← this]
              exact hq1 rfl (rp, refp) (List.mem_cons_self _ _)
            · rw [if_neg hpq] at hu
              exact hp1 p u hu
          · intro p v hv
            rw [posnsGet_set] at hv
            by_cases hpq : refp = p
            · rw [if_pos hpq] at hv
              have hv2 : (posnsGet posns refp).2 = some v := by simpa using hv
              exact hp2 refp v hv2
            · rw [if_neg hpq] at hv
              exact hp2 p v hv
          · intro hm pr h
            exact hq1 hm pr (List.mem_cons_of_mem _ h)
          · intro hm
            cases hm
        | true =>
          have hstep : scanPairs snp indel true ((rp, refp) :: tl) snps posns =
              scanPairs snp indel true tl (upsertSnps snps refp alleles)
                (posnsSet posns refp ((posnsGet posns refp).1, some rp)) := by
            simp only [scanPairs]
            rw [if_neg hi]
            simp only [hs]
            rfl
          rw [hstep] at hscan
          apply ih _ _ S P hscan
          · intro p u hu
            rw [posnsGet_set] at hu
            by_cases hpq : refp = p
            · rw [if_pos hpq] at hu
              have hu2 : (posnsGet posns refp).1 = some u := by simpa using hu
              exact hp1 refp u hu2
            · rw [if_neg hpq] at hu
              exact hp1 p u hu
          · intro p v hv
            rw [posnsGet_set] at hv
            by_cases hpq : refp = p
            · rw [if_pos hpq] at hv
              have : rp = v := by simpa using hv
              rw [← this]
              exact hq2 rfl (rp, refp) (List.mem_cons_self _ _)
            · rw [if_neg hpq] at hv
              exact hp2 p v hv
          · intro hm
            cases hm
          · intro hm pr h
            exact hq2 hm pr (List.mem_cons_of_mem _ h)

theorem get_dual_eq_of_scan (snp : Nat → Option (List Char)) (indel : Nat → Bool)
    (r1 r2 : AlignedRead) (res : Dispositions) (S : List (Nat × List Char)) (P : Posns)
    (hscan : dualOverlap snp indel r1 r2 = some (S, P)) :
    get_dual_read_seqs snp indel r1 r2 res =
      (if snpsProduct S > MAX_SEQS_PER_READ then
        (([], []), { res with toss_manysnps := res.toss_manysnps + 1 })
      else
        match dualFold P S ⟨r1.seq, r2.seq, [r1.seq], [r2.seq]⟩ with
        | .abort =>
          (([], []), { res with toss_anomalous_phase := res.toss_anomalous_phase + 1 })
        | .ok st =>
          if st.ls1.length = 1 then
            ((st.ls1, st.ls2), { res with no_snps := res.no_snps + 1 })
          else ((st.ls1, st.ls2), { res with has_snps := res.has_snps + 1 })) := by
  unfold get_dual_read_seqs
  rw [hscan]

theorem get_dual_eq_abort (snp : Nat → Option (List Char)) (indel : Nat → Bool)
    (r1 r2 : AlignedRead) (res : Dispositions) (S : List (Nat × List Char)) (P : Posns)
    (hscan : dualOverlap snp indel r1 r2 = some (S, P))
    (hcap : ¬ snpsProduct S > MAX_SEQS_PER_READ)
    (habort : dualFold P S ⟨r1.seq, r2.seq, [r1.seq], [r2.seq]⟩ = .abort) :
    get_dual_read_seqs snp indel r1 r2 res =
      (([], []), { res with toss_anomalous_phase := res.toss_anomalous_phase + 1 }) := by
  rw [get_dual_eq_of_scan snp indel r1 r2 res S P hscan, if_neg hcap, habort]

theorem get_dual_eq_ok (snp : Nat → Option (List Char)) (indel : Nat → Bool)
    (r1 r2 : AlignedRead) (res : Dispositions) (S : List (Nat × List Char)) (P : Posns)
    (st : DualState)
    (hscan : dualOverlap snp indel r1 r2 = some (S, P))
    (hcap : ¬ snpsProduct S > MAX_SEQS_PER_READ)
    (hok : dualFold P S ⟨r1.seq, r2.seq, [r1.seq], [r2.seq]⟩ = .ok st) :
    get_dual_read_seqs snp indel r1 r2 res =
      (if st.ls1.length = 1 then
        ((st.ls1, st.ls2), { res with no_snps := res.no_snps + 1 })
      else ((st.ls1, st.ls2), { res with has_snps := res.has_snps + 1 })) := by
  rw [get_dual_eq_of_scan snp indel r1 r2 res S P hscan, if_neg hcap, hok]

theorem expandPos_head (rp : Nat) (base : Char) :
    ∀ (alleles : List Char) (seqs : List (List Char)),
      (expandPos rp base seqs alleles).head? = seqs.head? := by
  intro alleles
  induction alleles with
  | nil => intro seqs; rfl
  | cons a as ih =>
    intro seqs
    by_cases h : a = base
    · have hstep : expandPos rp base seqs (a :: as) = expandPos rp base seqs as := by
        unfold expandPos
        simp only [List.foldl_cons]
        rw [if_pos h]
      rw [hstep, ih]
    · have hstep : expandPos rp base seqs (a :: as) =
          expandPos rp base (seqs ++ seqs.map (fun s => substitute s rp a)) as := by
        unfold expandPos
        simp only [List.foldl_cons]
        rw [if_neg h]
      rw [hstep, ih]
      cases seqs with
      | nil => rfl
      | cons s ss => rfl

theorem expandPos_mem_prop (rp : Nat) (base : Char) (P : List Char → Prop)
    (hsub : ∀ s, P s → ∀ a, P (substitute s rp a)) :
    ∀ (alleles : List Char) (seqs : List (List Char)),
      (∀ s ∈ seqs, P s) → ∀ s ∈ expandPos rp base seqs alleles, P s := by
  intro alleles
  induction alleles with
  | nil => intro seqs h; exact h
  | cons a as ih =>
    intro seqs h
    by_cases hc : a = base
    · have hstep : expandPos rp base seqs (a :: as) = expandPos rp base seqs as := by
        unfold expandPos
        simp only [List.foldl_cons]
        rw [if_pos hc]
      rw [hstep]
      exact ih seqs h
    · have hstep : expandPos rp base seqs (a :: as) =
          expandPos rp base (seqs ++ seqs.map (fun s => substitute s rp a)) as := by
        unfold expandPos
        simp only [List.foldl_cons]
        rw [if_neg hc]
      rw [hstep]
      apply ih
      intro s hs
      rcases List.mem_append.mp hs with hmem | hmem
      · exact h s hmem
      · obtain ⟨t, ht, rfl⟩ := List.mem_map.mp hmem
        exact hsub t (h t ht) a

theorem go_inv (snp : Nat → Option (List Char)) (indel : Nat → Bool) (orig : List Char) :
    ∀ (pairs : List (Nat × Nat)) (seqs : List (List Char)) (res : Dispositions),
      (∀ pr ∈ pairs, pr.1 < orig.length) →
      seqs.head? = some orig →
      (∀ s ∈ seqs, s.length = orig.length) →
      (get_read_seqs_go snp indel orig pairs seqs res).1 = [] ∨
      ((get_read_seqs_go snp indel orig pairs seqs res).1.head? = some orig ∧
        ∀ s ∈ (get_read_seqs_go snp indel orig pairs seqs res).1,
          s.length = orig.length) := by
  intro pairs
  induction pairs with
  | nil =>
    intro seqs res _ hhead hlen
    right
    simp only [get_read_seqs_go]
    constructor
    · split <;> exact hhead
    · split <;> exact hlen
  | cons hd tl ih =>
    intro seqs res hp hhead hlen
    obtain ⟨rp, refp⟩ := hd
    by_cases hi : indel refp = true
    · left
      simp only [get_read_seqs_go]
      rw [if_pos hi]
    · by_cases hc : seqs.length > MAX_SEQS_PER_READ
      · left
        simp only [get_read_seqs_go]
        rw [if_neg hi, if_pos hc]
      · have hptl : ∀ pr ∈ tl, pr.1 < orig.length :=
          fun pr h => hp pr (List.mem_cons_of_mem _ h)
        cases hs : snp refp with
        | none =>
          have hgo : get_read_seqs_go snp indel orig ((rp, refp) :: tl) seqs res =
              get_read_seqs_go snp indel orig tl seqs res := by
            simp only [get_read_seqs_go]
            rw [if_neg hi, if_neg hc]
            simp only [hs]
          rw [hgo]
          exact ih seqs res hptl hhead hlen
        | some alleles =>
          by_cases hb : orig.getD rp ' ' ∈ alleles
          · have hgo : get_read_seqs_go snp indel orig ((rp, refp) :: tl) seqs res =
                get_read_seqs_go snp indel orig tl
                  (expandPos rp (orig.getD rp ' ') seqs alleles)
                  { res with ref_match := res.ref_match + 1 } := by
              simp only [get_read_seqs_go]
              rw [if_neg hi, if_neg hc]
              simp only [hs]
              rw [if_pos hb]
            rw [hgo]
            have hrp : rp < orig.length := hp (rp, refp) (List.mem_cons_self _ _)
            apply ih
            · exact hptl
            · rw [expandPos_head]
              exact hhead
            · apply expandPos_mem_prop rp (orig.getD rp ' ')
                (fun s => s.length = orig.length)
              · intro s hsl a
                rw [substitute_length s rp a (by rw [hsl]; exact hrp)]
                exact hsl
              · exact hlen
          · have hgo : get_read_seqs_go snp indel orig ((rp, refp) :: tl) seqs res =
                get_read_seqs_go snp indel orig tl seqs
                  { res with no_match := res.no_match + 1 } := by
              simp only [get_read_seqs_go]
              rw [if_neg hi, if_neg hc]
              simp only [hs]
              rw [if_neg hb]
            rw [hgo]
            exact ih seqs _ hptl hhead hlen

/-- Claim C8: in every non-empty candidate list the generator returns — single-end
or either mate of a pair — entry 0 is the original read sequence and every entry
has the original's length, given the `AlignedRead` invariant that query-offsets of
aligned pairs lie inside the read. -/
theorem candidate_list_invariant :
    (∀ (snp : Nat → Option (List Char)) (indel : Nat → Bool) (r : AlignedRead)
        (res : Dispositions),
      (∀ pr ∈ r.aligned_pairs, pr.1 < r.seq.length) →
      (get_read_seqs snp indel r res).1 = [] ∨
      ((get_read_seqs snp indel r res).1.head? = some r.seq ∧
        ∀ s ∈ (get_read_seqs snp indel r res).1, s.length = r.seq.length)) ∧
    (∀ (snp : Nat → Option (List Char)) (indel : Nat → Bool) (r1 r2 : AlignedRead)
        (res : Dispositions),
      (∀ pr ∈ r1.aligned_pairs, pr.1 < r1.seq.length) →
      (∀ pr ∈ r2.aligned_pairs, pr.1 < r2.seq.length) →
      ((get_dual_read_seqs snp indel r1 r2 res).1.1 = [] ∧
        (get_dual_read_seqs snp indel r1 r2 res).1.2 = []) ∨
      ((get_dual_read_seqs snp indel r1 r2 res).1.1.head? = some r1.seq ∧
        (get_dual_read_seqs snp indel r1 r2 res).1.2.head? = some r2.seq ∧
        (∀ s ∈ (get_dual_read_seqs snp indel r1 r2 res).1.1,
          s.length = r1.seq.length) ∧
        (∀ s ∈ (get_dual_read_seqs snp indel r1 r2 res).1.2,
          s.length = r2.seq.length))) := by
  constructor
  · intro snp indel r res hp
    unfold get_read_seqs
    exact go_inv snp indel r.seq r.aligned_pairs [r.seq] res hp rfl
      (by intro s hs; rw [List.mem_singleton.mp hs])
  · intro snp indel r1 r2 res hp1 hp2
    cases hscan : dualOverlap snp indel r1 r2 with
    | none =>
      have hres : get_dual_read_seqs snp indel r1 r2 res =
          (([], []), { res with toss_indel := res.toss_indel + 1 }) := by
        unfold get_dual_read_seqs
        rw [hscan]
      rw [hres]
      left
      exact ⟨rfl, rfl⟩
    | some out =>
      obtain ⟨S, P⟩ := out
      by_cases hcap : snpsProduct S > MAX_SEQS_PER_READ
      · rw [get_dual_eq_of_scan snp indel r1 r2 res S P hscan, if_pos hcap]
        left
        exact ⟨rfl, rfl⟩
      · have hposns : (∀ p u, (posnsGet P p).1 = some u → u < r1.seq.length) ∧
            (∀ p v, (posnsGet P p).2 = some v → v < r2.seq.length) := by
          unfold dualOverlap at hscan
          cases hs1 : scanPairs snp indel false r1.aligned_pairs [] [] with
          | none => rw [hs1] at hscan; cases hscan
          | some mid =>
            rw [hs1] at hscan
            have hmid := scanPairs_posns_inv snp indel false (fun u => u < r1.seq.length)
              (fun v => v < r2.seq.length) r1.aligned_pairs [] [] mid.1 mid.2
              (by rw [hs1])
              (by intro p u hu; simp [posnsGet] at hu)
              (by intro p v hv; simp [posnsGet] at hv)
              (fun _ => hp1) (fun hm => by cases hm)
            exact scanPairs_posns_inv snp indel true (fun u => u < r1.seq.length)
              (fun v => v < r2.seq.length) r2.aligned_pairs mid.1 mid.2 S P hscan
              hmid.1 hmid.2 (fun hm => by cases hm) (fun _ => hp2)
        have hS : ∀ e ∈ S,
            (∀ u, (posnsGet P e.1).1 = some u →
              ∀ s, (fun t : List Char => t.length = r1.seq.length) s →
                ∀ a, (fun t : List Char => t.length = r1.seq.length) (substitute s u a)) ∧
            (∀ v, (posnsGet P e.1).2 = some v →
              ∀ s, (fun t : List Char => t.length = r2.seq.length) s →
                ∀ a, (fun t : List Char => t.length = r2.seq.length) (substitute s v a)) := by
          intro e _
          constructor
          · intro u hu s hsl a
            have hlt : u < r1.seq.length := hposns.1 e.1 u hu
            rw [substitute_length s u a (by rw [hsl]; exact hlt)]
            exact hsl
          · intro v hv s hsl a
            have hlt : v < r2.seq.length := hposns.2 e.1 v hv
            rw [substitute_length s v a (by rw [hsl]; exact hlt)]
            exact hsl
        rcases dualFold_inv P (fun t => t.length = r1.seq.length)
          (fun t => t.length = r2.seq.length) S
          ⟨r1.seq, r2.seq, [r1.seq], [r2.seq]⟩ hS rfl rfl
          (by intro s hs; rw [List.mem_singleton.mp hs])
          (by intro s hs; rw [List.mem_singleton.mp hs])
          with habort | ⟨st2, hok, hl1, hl2, ⟨n1, hn1⟩, ⟨n2, hn2⟩⟩
        · rw [get_dual_eq_abort snp indel r1 r2 res S P hscan hcap habort]
          left
          exact ⟨rfl, rfl⟩
        · rw [get_dual_eq_ok snp indel r1 r2 res S P st2 hscan hcap hok]
          right
          have hh1 : st2.ls1.head? = some r1.seq := by rw [hn1]; rfl
          have hh2 : st2.ls2.head? = some r2.seq := by rw [hn2]; rfl
          constructor
          · split <;> exact hh1
          constructor
          · split <;> exact hh2
          constructor
          · split <;> exact hl1
          · split <;> exact hl2

theorem dualFold_abort (posns : Posns) (orig1 orig2 : List Char) (q o1 o2 : Nat)
    (hq : posnsGet posns q = (some o1, some o2))
    (hb : orig1.getD o1 ' ' ≠ orig2.getD o2 ' ') :
    ∀ (S : List (Nat × List Char)) (st : DualState),
      (∃ al, (q, al) ∈ S) →
      (∀ e ∈ S, e.1 ≠ q →
        (∀ u, (posnsGet posns e.1).1 = some u → u ≠ o1 ∧ u < orig1.length) ∧
        (∀ v, (posnsGet posns e.1).2 = some v → v ≠ o2 ∧ v < orig2.length)) →
      st.cs1.length = orig1.length ∧ st.cs1.getD o1 ' ' = orig1.getD o1 ' ' →
      st.cs2.length = orig2.length ∧ st.cs2.getD o2 ' ' = orig2.getD o2 ' ' →
      (∀ s ∈ st.ls1, s.length = orig1.length ∧ s.getD o1 ' ' = orig1.getD o1 ' ') →
      (∀ s ∈ st.ls2, s.length = orig2.length ∧ s.getD o2 ' ' = orig2.getD o2 ' ') →
      dualFold posns S st = .abort := by
  intro S
  induction S with
  | nil =>
    intro st hmem _ _ _ _ _
    obtain ⟨al, h⟩ := hmem
    exact absurd h (List.not_mem_nil _)
  | cons e rest ih =>
    intro st hmem hfresh h1 h2 hm1 hm2
    obtain ⟨p, alleles⟩ := e
    by_cases hpq : p = q
    · subst hpq
      have habort : stepPos st alleles (posnsGet posns p) = .abort := by
        rw [hq]
        simp only [stepPos]
        rw [if_pos (by rw [h1.2, h2.2]; exact hb)]
      simp only [dualFold]
      rw [habort]
    · have hhead := hfresh (p, alleles) (List.mem_cons_self _ _) hpq
      have hsub1 : ∀ u, (posnsGet posns p).1 = some u →
          ∀ s, s.length = orig1.length ∧ s.getD o1 ' ' = orig1.getD o1 ' ' →
            ∀ a, (substitute s u a).length = orig1.length ∧
              (substitute s u a).getD o1 ' ' = orig1.getD o1 ' ' := by
        intro u hu s hs a
        obtain ⟨hne, hlt⟩ := hhead.1 u hu
        have hlt2 : u < s.length := by rw [hs.1]; exact hlt
        constructor
        · rw [substitute_length s u a hlt2]
          exact hs.1
        · rw [substitute_getD_ne s u o1 a ' ' hlt2 (Ne.symm hne)]
          exact hs.2
      have hsub2 : ∀ v, (posnsGet posns p).2 = some v →
          ∀ s, s.length = orig2.length ∧ s.getD o2 ' ' = orig2.getD o2 ' ' →
            ∀ a, (substitute s v a).length = orig2.length ∧
              (substitute s v a).getD o2 ' ' = orig2.getD o2 ' ' := by
        intro v hv s hs a
        obtain ⟨hne, hlt⟩ := hhead.2 v hv
        have hlt2 : v < s.length := by rw [hs.1]; exact hlt
        constructor
        · rw [substitute_length s v a hlt2]
          exact hs.1
        · rw [substitute_getD_ne s v o2 a ' ' hlt2 (Ne.symm hne)]
          exact hs.2
      rcases stepPos_inv
          (fun s => s.length = orig1.length ∧ s.getD o1 ' ' = orig1.getD o1 ' ')
          (fun s => s.length = orig2.length ∧ s.getD o2 ' ' = orig2.getD o2 ' ')
          st alleles (posnsGet posns p) hsub1 hsub2 h1 h2 hm1 hm2
        with habort | ⟨st2, hok, hc1, hc2, hl1, hl2, _, _⟩
      · simp only [dualFold]
        rw [habort]
      · have hmem2 : ∃ al, (q, al) ∈ rest := by
          obtain ⟨al, hal⟩ := hmem
          rcases List.mem_cons.mp hal with heq | hal2
          · exact absurd (congrArg Prod.fst heq).symm hpq
          · exact ⟨al, hal2⟩
        have hfold : dualFold posns ((p, alleles) :: rest) st = dualFold posns rest st2 := by
          simp only [dualFold]
          rw [hok]
        rw [hfold]
        exact ih st2 hmem2 (fun e he => hfresh e (List.mem_cons_of_mem _ he)) hc1 hc2 hl1 hl2

/-- Claim C4: when both mates cover a shared overlap position with disagreeing
observed bases, `get_dual_read_seqs` returns a pair of empty candidate lists and
increments `toss_anomalous_phase` — provided neither mate covers an indel
(the scans succeed), the combinatorial cap is not exceeded (those checks precede
the phase check in the source), and, per the `AlignedRead` invariant, recorded
query-offsets are in range and distinct positions map to distinct offsets. -/
theorem anomalous_phase_abort (snp : Nat → Option (List Char)) (indel : Nat → Bool)
    (r1 r2 : AlignedRead) (res : Dispositions) (S : List (Nat × List Char)) (P : Posns)
    (q o1 o2 : Nat) (alq : List Char)
    (hscan : dualOverlap snp indel r1 r2 = some (S, P))
    (hcap : ¬ snpsProduct S > MAX_SEQS_PER_READ)
    (hmem : (q, alq) ∈ S)
    (hqp : posnsGet P q = (some o1, some o2))
    (hb : r1.seq.getD o1 ' ' ≠ r2.seq.getD o2 ' ')
    (hfresh : ∀ e ∈ S, e.1 ≠ q →
      (∀ u, (posnsGet P e.1).1 = some u → u ≠ o1 ∧ u < r1.seq.length) ∧
      (∀ v, (posnsGet P e.1).2 = some v → v ≠ o2 ∧ v < r2.seq.length)) :
    get_dual_read_seqs snp indel r1 r2 res =
      (([], []), { res with toss_anomalous_phase := res.toss_anomalous_phase + 1 }) := by
  apply get_dual_eq_abort snp indel r1 r2 res S P hscan hcap
  apply dualFold_abort P r1.seq r2.seq q o1 o2 hqp hb S _ ⟨alq, hmem⟩ hfresh
  · exact ⟨rfl, rfl⟩
  · exact ⟨rfl, rfl⟩
  · intro s hs
    rw [List.mem_singleton.mp hs]
    exact ⟨rfl, rfl⟩
  · intro s hs
    rw [List.mem_singleton.mp hs]
    exact ⟨rfl, rfl⟩

/-- Witness for `anomalous_phase_abort`: both mates cover the SNP at 100, mate 1
observes `A`, mate 2 observes `G`. -/
theorem anomalous_phase_abort_witness :
    get_dual_read_seqs snpAG ind0 rW1 rW2 d0 = (([], []), ⟨0, 0, 1, 0, 0, 0, 0⟩) :=
  anomalous_phase_abort snpAG ind0 rW1 rW2 d0 _ _ 100 0 0 ['A', 'G'] rfl (by decide)
    (by decide) (by decide) (by decide)
    (by
      intro e he hne
      rw [List.mem_singleton.mp he] at hne
      exact absurd rfl hne)

theorem sum_map_const {α : Type} (l : List α) (k : Nat) :
    (l.map (fun _ => k)).sum = l.length * k := by
  induction l with
  | nil => simp
  | cons x xs ih =>
    simp only [List.map_cons, List.sum_cons, List.length_cons, ih]
    ring

theorem listProd_length {α : Type} :
    ∀ ls : List (List α), (listProd ls).length = product (ls.map List.length) := by
  intro ls
  induction ls with
  | nil => rfl
  | cons l ls ih =>
    simp only [listProd, List.length_flatten, List.map_map]
    have hmap : List.map (List.length ∘ fun x => List.map (fun c => x :: c) (listProd ls)) l
        = List.map (fun _ => (listProd ls).length) l := by
      apply List.map_congr_left
      intro a _
      simp [Function.comp, List.length_map]
    rw [hmap, sum_map_const, List.map_cons, product_cons, ih]

theorem getD_map {α β : Type} (f : α → β) :
    ∀ (l : List α) (i : Nat), i < l.length → ∀ (d : β) (d' : α),
      (l.map f).getD i d = f (l.getD i d') := by
  intro l
  induction l with
  | nil => intro i h; simp at h
  | cons x xs ih =>
    intro i h d d'
    cases i with
    | zero => rfl
    | succ k =>
      simp only [List.map_cons, List.getD_cons_succ]
      exact ih k (by simpa using h) d d'

theorem range_map_getD {β : Type} (n : Nat) (g : Nat → β) (i : Nat) (h : i < n) (d : β) :
    ((List.range n).map g).getD i d = g i := by
  rw [List.getD_eq_getElem?_getD, List.getElem?_map, List.getElem?_range h]
  rfl

theorem listProd_getD_mem {α : Type} (dα : α) (dl : List α) :
    ∀ (ls : List (List α)) (c : List α), c ∈ listProd ls →
      ∀ i, i < ls.length → c.getD i dα ∈ ls.getD i dl := by
  intro ls
  induction ls with
  | nil => intro c _ i h; simp at h
  | cons l ls ih =>
    intro c hc i hi
    simp only [listProd] at hc
    obtain ⟨l', hl', hcl⟩ := List.mem_flatten.mp hc
    obtain ⟨x, hx, rfl⟩ := List.mem_map.mp hl'
    obtain ⟨c', hc', rfl⟩ := List.mem_map.mp hcl
    cases i with
    | zero => simpa using hx
    | succ k =>
      simp only [List.getD_cons_succ]
      exact ih c' hc' k (by simpa using hi)

/-- Claim C5: with `1 < n ≤ 1024` (`n` the product of candidate-list lengths,
`numSeqsOf`), `write_read_seqs` writes every original record unchanged to the
to-remap partition, writes nothing to keep or dropped, and appends exactly `n - 1`
records to each mate's synthetic-read sink, each carrying a sequence from that
mate's candidate list — reverse-complemented exactly when that mate is
reverse-strand — and that mate's original quality string. -/
theorem remap_emission_spec (both : List (AlignedRead × List (List Char)))
    (hasD : Bool) (rn : Nat)
    (h1 : 1 < numSeqsOf both) (h2 : numSeqsOf both ≤ MAX_SEQS_PER_READ) :
    (write_read_seqs both hasD rn).keep = [] ∧
    (write_read_seqs both hasD rn).dropped = [] ∧
    (write_read_seqs both hasD rn).remap = both.map (fun b => b.1) ∧
    (write_read_seqs both hasD rn).fastqOut.length = both.length ∧
    (∀ f ∈ (write_read_seqs both hasD rn).fastqOut, f.length = numSeqsOf both - 1) ∧
    (∀ i, i < both.length →
      ∀ rec ∈ (write_read_seqs both hasD rn).fastqOut.getD i [],
        rec.qual = (both.getD i (dfltRead, [])).1.qual ∧
        ∃ s ∈ (both.getD i (dfltRead, [])).2,
          rec.seq =
            if (both.getD i (dfltRead, [])).1.is_reverse then reverse_complement s
            else s) := by
  have hne0 : ¬ (numSeqsOf both = 0 ∨ numSeqsOf both > MAX_SEQS_PER_READ) := by
    rintro (h | h)
    · omega
    · omega
  have hne1 : ¬ numSeqsOf both = 1 := by omega
  have hcombo : ∀ c ∈ (listProd (both.map (fun b => b.2))).tail,
      ∀ i, i < both.length →
        c.getD i [] ∈ (both.getD i (dfltRead, [])).2 := by
    intro c hc i hi
    have hmem := List.mem_of_mem_tail hc
    have hlen2 : i < (both.map (fun b => b.2)).length := by
      rw [List.length_map]; exact hi
    have := listProd_getD_mem ([] : List Char) ([] : List (List Char))
      (both.map (fun b => b.2)) c hmem i hlen2
    rwa [getD_map (fun b => b.2) both i hi [] (dfltRead, [])] at this
  have htail_len : (listProd (both.map (fun b => b.2))).tail.length =
      numSeqsOf both - 1 := by
    rw [List.length_tail, listProd_length, List.map_map]
    rfl
  refine ⟨?_, ?_, ?_, ?_, ?_, ?_⟩
  · simp only [write_read_seqs]
    rw [if_neg hne0, if_neg hne1]
  · simp only [write_read_seqs]
    rw [if_neg hne0, if_neg hne1]
  · simp only [write_read_seqs]
    rw [if_neg hne0, if_neg hne1]
  · simp only [write_read_seqs]
    rw [if_neg hne0, if_neg hne1]
    simp [List.length_map, List.length_range]
  · simp only [write_read_seqs]
    rw [if_neg hne0, if_neg hne1]
    intro f hf
    obtain ⟨i, _, rfl⟩ := List.mem_map.mp hf
    rw [List.length_map]
    exact htail_len
  · simp only [write_read_seqs]
    rw [if_neg hne0, if_neg hne1]
    intro i hi rec hrec
    have hlenr : i < (both.map (fun b => b.1)).length := by
      rw [List.length_map]; exact hi
    rw [range_map_getD (both.map (fun b => b.1)).length _ i hlenr] at hrec
    obtain ⟨combo, hcombo_mem, rfl⟩ := List.mem_map.mp hrec
    have hread : (both.map (fun b => b.1)).getD i dfltRead =
        (both.getD i (dfltRead, [])).1 :=
      getD_map (fun b => b.1) both i hi dfltRead (dfltRead, [])
    constructor
    · simp only [hread]
    · refine ⟨combo.getD i [], hcombo combo hcombo_mem i hi, ?_⟩
      simp only [hread]

/-- Witness for `remap_emission_spec` on a reverse-strand read with candidates
`[A]` and `[G]` (`n = 2`). -/
theorem remap_emission_spec_witness :
    (write_read_seqs [(rRev, [['A'], ['G']])] true 3).keep = [] ∧
    (write_read_seqs [(rRev, [['A'], ['G']])] true 3).dropped = [] ∧
    (write_read_seqs [(rRev, [['A'], ['G']])] true 3).remap =
      [(rRev, [['A'], ['G']])].map (fun b => b.1) ∧
    (write_read_seqs [(rRev, [['A'], ['G']])] true 3).fastqOut.length =
      [(rRev, [['A'], ['G']])].length ∧
    (∀ f ∈ (write_read_seqs [(rRev, [['A'], ['G']])] true 3).fastqOut,
      f.length = numSeqsOf [(rRev, [['A'], ['G']])] - 1) ∧
    (∀ i, i < [(rRev, [['A'], ['G']])].length →
      ∀ rec ∈ (write_read_seqs [(rRev, [['A'], ['G']])] true 3).fastqOut.getD i [],
        rec.qual = ([(rRev, [['A'], ['G']])].getD i (dfltRead, [])).1.qual ∧
        ∃ s ∈ ([(rRev, [['A'], ['G']])].getD i (dfltRead, [])).2,
          rec.seq =
            if ([(rRev, [['A'], ['G']])].getD i (dfltRead, [])).1.is_reverse then
              reverse_complement s
            else s) :=
  remap_emission_spec [(rRev, [['A'], ['G']])] true 3 (by decide) (by decide)

/-- Witness for `candidate_list_invariant` at the concrete single read `rS1` and
pair `rPair1`/`rPair2` over `snpAG`. -/
theorem candidate_list_invariant_witness :
    ((get_read_seqs snpAG ind0 rS1 d0).1 = [] ∨
      ((get_read_seqs snpAG ind0 rS1 d0).1.head? = some rS1.seq ∧
        ∀ s ∈ (get_read_seqs snpAG ind0 rS1 d0).1, s.length = rS1.seq.length)) ∧
    (((get_dual_read_seqs snpAG ind0 rPair1 rPair2 d0).1.1 = [] ∧
        (get_dual_read_seqs snpAG ind0 rPair1 rPair2 d0).1.2 = []) ∨
      ((get_dual_read_seqs snpAG ind0 rPair1 rPair2 d0).1.1.head? = some rPair1.seq ∧
        (get_dual_read_seqs snpAG ind0 rPair1 rPair2 d0).1.2.head? = some rPair2.seq ∧
        (∀ s ∈ (get_dual_read_seqs snpAG ind0 rPair1 rPair2 d0).1.1,
          s.length = rPair1.seq.length) ∧
        (∀ s ∈ (get_dual_read_seqs snpAG ind0 rPair1 rPair2 d0).1.2,
          s.length = rPair2.seq.length))) :=
  ⟨candidate_list_invariant.1 snpAG ind0 rS1 d0 (by decide),
    candidate_list_invariant.2 snpAG ind0 rPair1 rPair2 d0 (by decide) (by decide)⟩

end Wasp
